import Mathlib

/-!
# Verification of the `gibbs` Ising-model sampling library

Shallow embedding of the core data structures and operations of the
repository (`data.py`, `util.py`, `bruteforce.py`, `gibbs.py`,
`exp_histogram.py`) together with proofs of the specification claims.

Embedding conventions:
* Python dicts are modelled as insertion-ordered association lists
  (`List (κ × ℚ)`); real Python dicts never hold duplicate keys, which here
  becomes the explicit `NodupKeys` predicate where a proof needs it.
* Python floats are modelled as exact rationals `ℚ`; "within floating
  tolerance" claims become exact equalities.
* Raising `ValueError` is modelled as `Except.error`; the Python code performs
  all checks before any mutation, so an error leaves the model unchanged,
  which a functional embedding renders by simply not producing a new state.
* Variable identifiers are natural numbers (the repository and its tests use
  small integer qubit identifiers throughout).
-/

/-- Variable identifiers (qubit labels). -/
abbrev Var := ℕ

/-- A Python dict with rational values, as an insertion-ordered assoc list. -/
abbrev QDict := List (Var × ℚ)

/-- The `J` matrix dict: unordered pairs (stored sort-normalized) to couplings. -/
abbrev JDict := List ((Var × Var) × ℚ)

/-- Keys of an association list. -/
def dictKeys {κ : Type} (l : List (κ × ℚ)) : List κ := l.map Prod.fst

/-- A Python dict never holds two entries with the same key. -/
def NodupKeys {κ : Type} (l : List (κ × ℚ)) : Prop := (dictKeys l).Nodup

instance {κ : Type} [DecidableEq κ] (l : List (κ × ℚ)) : Decidable (NodupKeys l) :=
  inferInstanceAs (Decidable (l.map Prod.fst).Nodup)

/-- `d[k]` as an optional read (Python raises `KeyError` when absent;
the embedding's callers either know the key is present or model the
`zerodefaultdict` read with `.getD 0`). -/
def dictLookup {κ : Type} [DecidableEq κ] : List (κ × ℚ) → κ → Option ℚ
  | [], _ => none
  | p :: rest, k => if p.1 = k then some p.2 else dictLookup rest k

/-- `d[k] = v`: replace the first entry with key `k`, or append a new entry
(Python dicts keep the position of an existing key and append new keys). -/
def dictSet {κ : Type} [DecidableEq κ] : List (κ × ℚ) → κ → ℚ → List (κ × ℚ)
  | [], k, v => [(k, v)]
  | p :: rest, k, v => if p.1 = k then (k, v) :: rest else p :: dictSet rest k v

/-- `d.pop(k, default)`'s removal effect: drop the first entry with key `k`
(the unique one, since Python dicts have no duplicate keys). -/
def dictErase {κ : Type} [DecidableEq κ] : List (κ × ℚ) → κ → List (κ × ℚ)
  | [], _ => []
  | p :: rest, k => if p.1 = k then rest else p :: dictErase rest k

/-- `d[k] += x` on a `zerodefaultdict` (missing keys read as `0.0`). -/
def dictAdd {κ : Type} [DecidableEq κ] (l : List (κ × ℚ)) (k : κ) (x : ℚ) :
    List (κ × ℚ) :=
  dictSet l k ((dictLookup l k).getD 0 + x)

/-- `d.update(other)`: upsert every entry of `other` in order. -/
def dictUpdate {κ : Type} [DecidableEq κ] (l other : List (κ × ℚ)) :
    List (κ × ℚ) :=
  other.foldl (fun acc p => dictSet acc p.1 p.2) l

/-- `tuple(sorted(key))` for a 2-tuple key of `symmetriczerodefaultdict`. -/
def sortPair (k : Var × Var) : Var × Var := if k.1 ≤ k.2 then k else (k.2, k.1)

/-- `symmetriczerodefaultdict.__setitem__`: reject diagonal keys, then store
under the sort-normalized key. -/
def Jset (l : JDict) (k : Var × Var) (v : ℚ) : Except String JDict :=
  if k.1 = k.2 then .error "We cannot set diagonal elements"
  else .ok (dictSet l (sortPair k) v)

/-- `symmetriczerodefaultdict.update` (also its constructor): insert the
entries of `other` in order through `__setitem__`. -/
def Jupdate (l : JDict) (other : JDict) : Except String JDict :=
  other.foldlM (fun acc p => Jset acc p.1 p.2) l

/-- `symmetriczerodefaultdict.elements`: all endpoints used by the keys. -/
def Jelements (l : JDict) : Finset Var :=
  ((l.map (fun p => p.1.1)).toFinset) ∪ ((l.map (fun p => p.1.2)).toFinset)

/-- The `IsingModel` object of `data.py`. -/
structure IsingModel where
  J : JDict
  h : QDict
  J_clamped : JDict
  h_clamped : QDict
  clamped : QDict
  energy_offset : ℚ
  vars : Finset Var
  deriving DecidableEq

/-- `IsingModel.__init__(J, h)`: normalize `J`, copy both views, compute the
variable set.  Fails (like `__setitem__`) when `J` holds a diagonal key. -/
def mkIsingModel (J : JDict) (h : QDict) : Except String IsingModel := do
  let Jn ← Jupdate [] J
  let hn := dictUpdate [] h
  .ok { J := Jn, h := hn, J_clamped := Jn, h_clamped := hn, clamped := [],
        energy_offset := 0, vars := Jelements Jn ∪ (dictKeys hn).toFinset }

/-- One iteration of the edge loop in `IsingModel.clamp`: for an edge touching
the clamped variable, pop it from `J_clamped` and fold its coupling either
into the free endpoint's bias or into the energy offset. -/
def clampStep (clamped' : QDict) (v : Var) (value : ℚ)
    (acc : JDict × QDict × ℚ) (p : (Var × Var) × ℚ) : JDict × QDict × ℚ :=
  if v = p.1.1 ∨ v = p.1.2 then
    let v2 := if p.1.1 = v then p.1.2 else p.1.1
    match dictLookup clamped' v2 with
    | none => (dictErase acc.1 (sortPair p.1), dictAdd acc.2.1 v2 (p.2 * value), acc.2.2)
    | some w => (dictErase acc.1 (sortPair p.1), acc.2.1, acc.2.2 + w * p.2 * value)
  else acc

/-- `IsingModel.clamp(variable, value)` from `data.py`. -/
def IsingModel.clamp (m : IsingModel) (v : Var) (value : ℚ) :
    Except String IsingModel :=
  match dictLookup m.clamped v with
  | some w =>
      if value ≠ w then
        .error "Cannot clamp: variable is already clamped to a different value"
      else
        .ok m
  | none =>
      if v ∉ m.vars then .error "Variable not available in this model"
      else if value ≠ 1 ∧ value ≠ -1 then .error "Invalid value"
      else
        let clamped' := dictSet m.clamped v value
        let offset0 := m.energy_offset + (dictLookup m.h_clamped v).getD 0 * value
        let hc0 := dictErase m.h_clamped v
        let r := m.J_clamped.foldl (clampStep clamped' v value) (m.J_clamped, hc0, offset0)
        .ok { m with vars := m.vars.erase v, clamped := clamped',
                     J_clamped := r.1, h_clamped := r.2.1, energy_offset := r.2.2 }

/-- `functools.reduce(operator.mul, [a k1, a k2], value)`. -/
def reduceMul (value x y : ℚ) : ℚ := value * x * y

/-- `IsingSample.compute_energy` as a function of the model and an assignment
read (total) function. -/
def compute_energy (m : IsingModel) (a : Var → ℚ) : ℚ :=
  let e1 := m.J_clamped.foldl (fun e p => e + reduceMul p.2 (a p.1.1) (a p.1.2)) m.energy_offset
  m.h_clamped.foldl (fun e p => e + a p.1 * p.2) e1

/-- Well-formedness of an `IsingModel`, maintained by the Python class for
every model built through `__init__` and `clamp`: dicts have unique keys,
`J_clamped` keys are sort-normalized and off-diagonal, clamped variables left
the active set, and the reduced views only mention active variables. -/
def WF (m : IsingModel) : Prop :=
  NodupKeys m.J_clamped ∧
  (∀ p ∈ m.J_clamped, p.1.1 < p.1.2) ∧
  NodupKeys m.h_clamped ∧
  NodupKeys m.clamped ∧
  (∀ p ∈ m.clamped, p.1 ∉ m.vars) ∧
  (∀ p ∈ m.J_clamped, p.1.1 ∈ m.vars ∧ p.1.2 ∈ m.vars) ∧
  (∀ p ∈ m.h_clamped, p.1 ∈ m.vars)

instance (m : IsingModel) : Decidable (WF m) := by
  unfold WF; infer_instance

/-! ## Association-list lemmas -/

lemma foldl_add_map {α : Type} (f : α → ℚ) :
    ∀ (l : List α) (init : ℚ),
      l.foldl (fun e p => e + f p) init = init + (l.map f).sum := by
  intro l
  induction l with
  | nil => simp
  | cons p rest ih => intro init; simp [ih, add_assoc]

lemma dictErase_sublist {κ : Type} [DecidableEq κ] (l : List (κ × ℚ)) (k : κ) :
    List.Sublist (dictErase l k) l := by
  induction l with
  | nil => simp [dictErase]
  | cons p rest ih =>
      simp only [dictErase]
      split
      · exact List.sublist_cons_self p rest
      · exact ih.cons₂ p

lemma sublist_dictErase {κ : Type} [DecidableEq κ] :
    ∀ {l : List (κ × ℚ)} {p : κ × ℚ} {rest : List (κ × ℚ)},
      List.Sublist (p :: rest) l → List.Sublist rest (dictErase l p.1) := by
  intro l
  induction l with
  | nil => intro p rest h; cases h
  | cons q l' ih =>
      intro p rest h
      cases h with
      | cons _ h' =>
          simp only [dictErase]
          split
          · exact List.sublist_of_cons_sublist h'
          · exact (ih h').cons q
      | cons₂ _ h' =>
          simp only [dictErase, if_pos rfl]
          exact h'

lemma nodupKeys_dictErase {κ : Type} [DecidableEq κ] {l : List (κ × ℚ)} (k : κ)
    (h : NodupKeys l) : NodupKeys (dictErase l k) :=
  h.sublist ((dictErase_sublist l k).map Prod.fst)

lemma dictLookup_eq_some_mem {κ : Type} [DecidableEq κ] :
    ∀ {l : List (κ × ℚ)} {k : κ} {w : ℚ}, dictLookup l k = some w → (k, w) ∈ l := by
  intro l
  induction l with
  | nil => intro k w h; simp [dictLookup] at h
  | cons p rest ih =>
      intro k w h
      simp only [dictLookup] at h
      split at h
      · rename_i hk
        obtain rfl : p.2 = w := by simpa using h
        subst hk
        exact List.mem_cons_self _ _
      · exact List.mem_cons_of_mem _ (ih h)

lemma dictLookup_eq_none_of_not_mem {κ : Type} [DecidableEq κ] :
    ∀ {l : List (κ × ℚ)} {k : κ}, k ∉ dictKeys l → dictLookup l k = none := by
  intro l
  induction l with
  | nil => intro k _; rfl
  | cons p rest ih =>
      intro k h
      simp only [dictKeys, List.map_cons, List.mem_cons, not_or] at h
      simp only [dictLookup, if_neg (Ne.symm h.1)]
      exact ih (by simpa [dictKeys] using h.2)

lemma dictErase_of_not_mem {κ : Type} [DecidableEq κ] :
    ∀ {l : List (κ × ℚ)} {k : κ}, k ∉ dictKeys l → dictErase l k = l := by
  intro l
  induction l with
  | nil => intro k _; rfl
  | cons p rest ih =>
      intro k h
      simp only [dictKeys, List.map_cons, List.mem_cons, not_or] at h
      simp only [dictErase, if_neg (Ne.symm h.1)]
      rw [ih (by simpa [dictKeys] using h.2)]

lemma dictErase_map_sum {κ : Type} [DecidableEq κ] (f : κ × ℚ → ℚ) :
    ∀ {l : List (κ × ℚ)} {p : κ × ℚ}, NodupKeys l → p ∈ l →
      ((dictErase l p.1).map f).sum = (l.map f).sum - f p := by
  intro l
  induction l with
  | nil => intro p _ hp; cases hp
  | cons q rest ih =>
      intro p hnd hp
      have hnd0 : q.1 ∉ List.map Prod.fst rest ∧ (List.map Prod.fst rest).Nodup := by
        have h0 := hnd
        simp only [NodupKeys, dictKeys, List.map_cons, List.nodup_cons] at h0
        exact h0
      have hnd' : NodupKeys rest := hnd0.2
      simp only [dictErase]
      by_cases hq : q.1 = p.1
      · have hpq : p = q := by
          rcases List.mem_cons.mp hp with h | h
          · exact h
          · exfalso
            have : q.1 ∈ List.map Prod.fst rest := by
              rw [hq]; exact List.mem_map_of_mem Prod.fst h
            exact hnd0.1 this
        subst hpq
        simp [List.map_cons]
      · have hp' : p ∈ rest := by
          rcases List.mem_cons.mp hp with h | h
          · exact absurd (congrArg Prod.fst h).symm hq
          · exact h
        simp only [if_neg hq, List.map_cons, List.sum_cons, ih hnd' hp']
        ring

lemma dictAdd_map_sum {κ : Type} [DecidableEq κ] (a : κ → ℚ) :
    ∀ (l : List (κ × ℚ)) (k : κ) (x : ℚ),
      ((dictAdd l k x).map (fun q => a q.1 * q.2)).sum
        = (l.map (fun q => a q.1 * q.2)).sum + a k * x := by
  intro l
  induction l with
  | nil =>
      intro k x
      simp [dictAdd, dictSet, dictLookup]
  | cons q rest ih =>
      intro k x
      simp only [dictAdd, dictLookup, dictSet]
      by_cases hq : q.1 = k
      · simp only [if_pos hq, Option.getD_some, List.map_cons, List.sum_cons]
        rw [hq]
        ring
      · simp only [if_neg hq, List.map_cons, List.sum_cons]
        have h2 := ih k x
        simp only [dictAdd] at h2
        rw [h2]
        ring

lemma dictLookup_set_self {κ : Type} [DecidableEq κ] :
    ∀ (l : List (κ × ℚ)) (k : κ) (v : ℚ), dictLookup (dictSet l k v) k = some v := by
  intro l
  induction l with
  | nil => intro k v; simp [dictSet, dictLookup]
  | cons q rest ih =>
      intro k v
      simp only [dictSet]
      by_cases hq : q.1 = k
      · simp [hq, dictLookup]
      · simp only [if_neg hq, dictLookup, if_neg hq]
        exact ih k v

lemma dictLookup_set_ne {κ : Type} [DecidableEq κ] {k' k : κ} (hne : k' ≠ k) :
    ∀ (l : List (κ × ℚ)) (v : ℚ), dictLookup (dictSet l k v) k' = dictLookup l k' := by
  intro l
  induction l with
  | nil =>
      intro v
      simp [dictSet, dictLookup, if_neg (Ne.symm hne)]
  | cons q rest ih =>
      intro v
      simp only [dictSet]
      by_cases hq : q.1 = k
      · subst hq
        simp only [if_pos rfl, dictLookup, if_neg (Ne.symm hne)]
      · simp only [if_neg hq, dictLookup]
        split
        · rfl
        · exact ih v

lemma mem_dictKeys_lookup {κ : Type} [DecidableEq κ] :
    ∀ {l : List (κ × ℚ)} {k : κ}, k ∈ dictKeys l → ∃ w, dictLookup l k = some w := by
  intro l
  induction l with
  | nil => intro k h; simp [dictKeys] at h
  | cons p rest ih =>
      intro k h
      by_cases hk : p.1 = k
      · exact ⟨p.2, by simp [dictLookup, hk]⟩
      · have : k ∈ dictKeys rest := by
          simp only [dictKeys, List.map_cons, List.mem_cons] at h
          rcases h with h | h
          · exact absurd h.symm hk
          · exact h
        obtain ⟨w, hw⟩ := ih this
        exact ⟨w, by simp [dictLookup, hk, hw]⟩

/-! ## The clamp energy-equivalence argument (claim C1) -/

/-- Quadratic part of `compute_energy` as a list sum. -/
def sumJ (a : Var → ℚ) (l : JDict) : ℚ :=
  (l.map (fun p => reduceMul p.2 (a p.1.1) (a p.1.2))).sum

/-- Linear part of `compute_energy` as a list sum. -/
def sumH (a : Var → ℚ) (l : QDict) : ℚ :=
  (l.map (fun p => a p.1 * p.2)).sum

lemma compute_energy_eq (m : IsingModel) (a : Var → ℚ) :
    compute_energy m a = m.energy_offset + sumJ a m.J_clamped + sumH a m.h_clamped := by
  unfold compute_energy sumJ sumH
  rw [foldl_add_map, foldl_add_map]

lemma clamp_loop (v : Var) (value : ℚ) (clamped' : QDict) (a : Var → ℚ)
    (hav : a v = value)
    (hcons : ∀ u w, dictLookup clamped' u = some w → a u = w) :
    ∀ (todo Jc : JDict) (hc : QDict) (off : ℚ),
      NodupKeys Jc → (∀ p ∈ Jc, p.1.1 < p.1.2) → List.Sublist todo Jc →
      (todo.foldl (clampStep clamped' v value) (Jc, hc, off)).2.2
        + sumJ a (todo.foldl (clampStep clamped' v value) (Jc, hc, off)).1
        + sumH a (todo.foldl (clampStep clamped' v value) (Jc, hc, off)).2.1
      = off + sumJ a Jc + sumH a hc := by
  intro todo
  induction todo with
  | nil => intro Jc hc off _ _ _; simp only [List.foldl_nil]
  | cons p rest ih =>
      intro Jc hc off hnd hsorted hsub
      have hpJc : p ∈ Jc := hsub.subset (List.mem_cons_self p rest)
      have hlt : p.1.1 < p.1.2 := hsorted p hpJc
      have hsp : sortPair p.1 = p.1 := by
        simp [sortPair, le_of_lt hlt]
      have hrest : List.Sublist rest (dictErase Jc p.1) := sublist_dictErase hsub
      have hndE : NodupKeys (dictErase Jc p.1) := nodupKeys_dictErase _ hnd
      have hsortedE : ∀ q ∈ dictErase Jc p.1, q.1.1 < q.1.2 :=
        fun q hq => hsorted q ((dictErase_sublist Jc p.1).subset hq)
      have hsumE : sumJ a (dictErase Jc p.1)
          = sumJ a Jc - reduceMul p.2 (a p.1.1) (a p.1.2) :=
        dictErase_map_sum _ hnd hpJc
      simp only [List.foldl_cons]
      by_cases hv : v = p.1.1 ∨ v = p.1.2
      · by_cases h1 : p.1.1 = v
        · cases hlk : dictLookup clamped' p.1.2 with
          | none =>
              have hstep : clampStep clamped' v value (Jc, hc, off) p
                  = (dictErase Jc p.1, dictAdd hc p.1.2 (p.2 * value), off) := by
                simp [clampStep, hv, h1, hlk, hsp]
              rw [hstep, ih _ _ _ hndE hsortedE hrest, hsumE,
                  show sumH a (dictAdd hc p.1.2 (p.2 * value))
                      = sumH a hc + a p.1.2 * (p.2 * value) from
                    dictAdd_map_sum a hc p.1.2 (p.2 * value)]
              have hval : a p.1.1 = value := by rw [h1, hav]
              simp only [reduceMul, hval]
              ring
          | some w =>
              have hstep : clampStep clamped' v value (Jc, hc, off) p
                  = (dictErase Jc p.1, hc, off + w * p.2 * value) := by
                simp [clampStep, hv, h1, hlk, hsp]
              rw [hstep, ih _ _ _ hndE hsortedE hrest, hsumE]
              have hval : a p.1.1 = value := by rw [h1, hav]
              have hw : a p.1.2 = w := hcons _ _ hlk
              simp only [reduceMul, hval, hw]
              ring
        · have h2 : v = p.1.2 := by
            rcases hv with h | h
            · exact absurd h.symm h1
            · exact h
          cases hlk : dictLookup clamped' p.1.1 with
          | none =>
              have hstep : clampStep clamped' v value (Jc, hc, off) p
                  = (dictErase Jc p.1, dictAdd hc p.1.1 (p.2 * value), off) := by
                simp [clampStep, hv, h1, hlk, hsp]
              rw [hstep, ih _ _ _ hndE hsortedE hrest, hsumE,
                  show sumH a (dictAdd hc p.1.1 (p.2 * value))
                      = sumH a hc + a p.1.1 * (p.2 * value) from
                    dictAdd_map_sum a hc p.1.1 (p.2 * value)]
              have hval : a p.1.2 = value := by rw [← h2, hav]
              simp only [reduceMul, hval]
              ring
          | some w =>
              have hstep : clampStep clamped' v value (Jc, hc, off) p
                  = (dictErase Jc p.1, hc, off + w * p.2 * value) := by
                simp [clampStep, hv, h1, hlk, hsp]
              rw [hstep, ih _ _ _ hndE hsortedE hrest, hsumE]
              have hval : a p.1.2 = value := by rw [← h2, hav]
              have hw : a p.1.1 = w := hcons _ _ hlk
              simp only [reduceMul, hval, hw]
              ring
      · have hstep : clampStep clamped' v value (Jc, hc, off) p = (Jc, hc, off) := by
          simp [clampStep, hv]
        rw [hstep]
        exact ih _ _ _ hnd hsorted (List.sublist_of_cons_sublist hsub)

/-- C1. Clamp equivalence: for every well-formed model, every variable `v` and
value `a ∈ {-1,+1}` accepted by `clamp`, and every full assignment that
assigns `value` to `v` and is consistent with the already-clamped values, the
energy computed against the model before `clamp(v, value)` equals the energy
computed against the model after, i.e. against
`(J_clamped, h_clamped, energy_offset, clamped)`.  (With rationals standing
for floats the equality is exact.) -/
theorem clamp_preserves_energy (m m' : IsingModel) (v : Var) (value : ℚ)
    (a : Var → ℚ) (hWF : WF m) (hclamp : m.clamp v value = .ok m')
    (hav : a v = value)
    (hcons : ∀ u w, dictLookup m.clamped u = some w → a u = w) :
    compute_energy m a = compute_energy m' a := by
  obtain ⟨hndJ, hsorted, hndH, -⟩ := hWF
  unfold IsingModel.clamp at hclamp
  cases hlk : dictLookup m.clamped v with
  | some w =>
      rw [hlk] at hclamp
      by_cases hvw : value = w
      · simp only [hvw, ne_eq, not_true_eq_false, if_false, ite_not] at hclamp
        have : m = m' := by
          by_cases h : w = w
          · simpa [h] using hclamp
          · exact absurd rfl h
        rw [this]
      · simp [hvw] at hclamp
  | none =>
      rw [hlk] at hclamp
      by_cases hvars : v ∉ m.vars
      · simp [hvars] at hclamp
      · by_cases hval : value ≠ 1 ∧ value ≠ -1
        · simp [hvars, hval] at hclamp
        · simp only [if_neg hvars, if_neg hval, Except.ok.injEq] at hclamp
          subst hclamp
          have hcons' : ∀ u w,
              dictLookup (dictSet m.clamped v value) u = some w → a u = w := by
            intro u w hlu
            by_cases hu : u = v
            · subst hu
              rw [dictLookup_set_self] at hlu
              obtain rfl : value = w := by simpa using hlu
              exact hav
            · rw [dictLookup_set_ne hu] at hlu
              exact hcons u w hlu
          rw [compute_energy_eq, compute_energy_eq]
          simp only
          rw [clamp_loop v value (dictSet m.clamped v value) a hav hcons'
                m.J_clamped m.J_clamped (dictErase m.h_clamped v)
                (m.energy_offset + (dictLookup m.h_clamped v).getD 0 * value)
                hndJ hsorted (List.Sublist.refl _)]
          cases hlv : dictLookup m.h_clamped v with
          | none =>
              have hnm : v ∉ dictKeys m.h_clamped := by
                intro hmem
                obtain ⟨w, hw⟩ := mem_dictKeys_lookup hmem
                rw [hlv] at hw
                cases hw
              rw [dictErase_of_not_mem hnm]
              simp
          | some w =>
              have hmem : (v, w) ∈ m.h_clamped := dictLookup_eq_some_mem hlv
              have := dictErase_map_sum (fun q => a q.1 * q.2) hndH hmem
              simp only [sumH] at this ⊢
              rw [this]
              simp only [Option.getD_some]
              rw [hav]
              ring

deriving instance DecidableEq for Except

/-- The model of `test_clamp_variable_simple`:
`h = {0: 4.5, 1: 10, 2: -5}`, `J = {(0, 1): -4.5, (1, 2): 5}`,
written in the normalized form produced by `IsingModel.__init__`. -/
def exModel : IsingModel :=
  { J := [((0, 1), -4.5), ((1, 2), 5)]
    h := [(0, 4.5), (1, 10), (2, -5)]
    J_clamped := [((0, 1), -4.5), ((1, 2), 5)]
    h_clamped := [(0, 4.5), (1, 10), (2, -5)]
    clamped := []
    energy_offset := 0
    vars := {0, 1, 2} }

/-- `exModel` after `clamp(0, 1)` (the expected state asserted by the test:
`h_clamped == {1: 5.5, 2: -5}`, `J_clamped == {(1, 2): 5}`). -/
def exModelClamped : IsingModel :=
  { J := [((0, 1), -4.5), ((1, 2), 5)]
    h := [(0, 4.5), (1, 10), (2, -5)]
    J_clamped := [((1, 2), 5)]
    h_clamped := [(1, 5.5), (2, -5)]
    clamped := [(0, 1)]
    energy_offset := 4.5
    vars := {1, 2} }

/-- A concrete full assignment consistent with clamping variable 0 to +1. -/
def exAssign : Var → ℚ := fun k => if k = 0 then 1 else -1

/-- Witness for C1 at a concrete model, clamp and assignment. -/
theorem clamp_preserves_energy_witness :
    compute_energy exModel exAssign = compute_energy exModelClamped exAssign :=
  clamp_preserves_energy exModel exModelClamped 0 1 exAssign (by decide)
    (by unfold IsingModel.clamp
        norm_num [exModel, exModelClamped, dictLookup, dictSet, dictErase,
                  dictAdd, clampStep, sortPair, List.foldl])
    rfl (fun u w h => Option.noConfusion h)

/-- C4. `clamp(variable, value)` checks its arguments before any mutation, in
this order: a variable already clamped to a different value gives the
*conflicting clamp* error; already clamped to the same value is a no-op
returning the unchanged model (so a repeated identical clamp is idempotent);
a variable outside the active set gives the *unknown variable* error; a value
outside `{-1, +1}` gives the *invalid value* error.  Every failing call
returns only the error, the model state being untouched. -/
theorem clamp_error_cases (m : IsingModel) (v : Var) (value : ℚ) :
    (∀ w, dictLookup m.clamped v = some w → value ≠ w →
        m.clamp v value
          = .error "Cannot clamp: variable is already clamped to a different value") ∧
    (∀ w, dictLookup m.clamped v = some w → value = w → m.clamp v value = .ok m) ∧
    (dictLookup m.clamped v = none → v ∉ m.vars →
        m.clamp v value = .error "Variable not available in this model") ∧
    (dictLookup m.clamped v = none → v ∈ m.vars → value ≠ 1 → value ≠ -1 →
        m.clamp v value = .error "Invalid value") ∧
    (∀ m', m.clamp v value = .ok m' → m'.clamp v value = .ok m') := by
  refine ⟨?_, ?_, ?_, ?_, ?_⟩
  · intro w hw hne
    unfold IsingModel.clamp
    rw [hw]
    simp [hne]
  · intro w hw heq
    unfold IsingModel.clamp
    rw [hw]
    simp [heq]
  · intro hn hv
    unfold IsingModel.clamp
    rw [hn]
    simp [hv]
  · intro hn hv h1 hm1
    unfold IsingModel.clamp
    rw [hn]
    simp [hv, h1, hm1]
  · intro m' hok
    unfold IsingModel.clamp at hok
    cases hlk : dictLookup m.clamped v with
    | some w =>
        rw [hlk] at hok
        by_cases hvw : value = w
        · have hmm : m = m' := by
            simpa [hvw] using hok
          subst hmm
          unfold IsingModel.clamp
          rw [hlk]
          simp [hvw]
        · simp [hvw] at hok
    | none =>
        rw [hlk] at hok
        by_cases hvars : v ∉ m.vars
        · simp [hvars] at hok
        · by_cases hval : value ≠ 1 ∧ value ≠ -1
          · simp [hvars, hval] at hok
          · simp only [if_neg hvars, if_neg hval, Except.ok.injEq] at hok
            subst hok
            unfold IsingModel.clamp
            simp only [dictLookup_set_self]
            simp

/-- Witness for C4: clamping a free variable of a concrete model to the
value 5 fails with the *invalid value* error. -/
theorem clamp_error_cases_witness :
    exModel.clamp 2 5 = .error "Invalid value" :=
  (clamp_error_cases exModel 2 5).2.2.2.1 rfl (by decide) (by decide) (by decide)

/-! ## Samples (`IsingSample` of `data.py`) -/

/-- The order CPython's `sorted()` uses on dict items: tuple lexicographic,
key first, then value. -/
def pairLe (p q : Var × ℚ) : Prop := p.1 < q.1 ∨ (p.1 = q.1 ∧ p.2 ≤ q.2)

instance : DecidableRel pairLe := fun p q => by unfold pairLe; infer_instance

instance : IsTotal (Var × ℚ) pairLe where
  total p q := by
    rcases lt_trichotomy p.1 q.1 with h | h | h
    · exact Or.inl (Or.inl h)
    · rcases le_total p.2 q.2 with h2 | h2
      · exact Or.inl (Or.inr ⟨h, h2⟩)
      · exact Or.inr (Or.inr ⟨h.symm, h2⟩)
    · exact Or.inr (Or.inl h)

instance : IsTrans (Var × ℚ) pairLe where
  trans p q r hpq hqr := by
    rcases hpq with h | ⟨he, hv⟩
    · rcases hqr with h' | ⟨he', _⟩
      · exact Or.inl (h.trans h')
      · exact Or.inl (he' ▸ h)
    · rcases hqr with h' | ⟨he', hv'⟩
      · exact Or.inl (he ▸ h')
      · exact Or.inr ⟨he.trans he', hv.trans hv'⟩

instance : IsAntisymm (Var × ℚ) pairLe where
  antisymm p q hpq hqp := by
    rcases hpq with h | ⟨he, hv⟩
    · rcases hqp with h' | ⟨he', _⟩
      · exact absurd (h.trans h') (lt_irrefl _)
      · exact absurd h (he' ▸ lt_irrefl _)
    · rcases hqp with h' | ⟨he', hv'⟩
      · exact absurd h' (he ▸ lt_irrefl _)
      · exact Prod.ext he (le_antisymm hv hv')

/-- `sorted(d.items())`. -/
def sortItems (d : QDict) : QDict := List.insertionSort pairLe d

/-- `hashabledict.as_tuple`: the values in sorted-key order. -/
def as_tuple (d : QDict) : List ℚ := (sortItems d).map Prod.snd

/-- The `IsingSample` object of `data.py` (a reference to the shared model is
kept in Python but plays no role in the sample's own state). -/
structure IsingSample where
  assignment : QDict
  occurences : ℤ
  energy : ℚ
  deriving DecidableEq

/-- `IsingSample.expand_sample`: `sample.update(model.clamped)`.  The Python
code updates the caller's dict object *in place* and returns that same
object; the embedding passes the state explicitly, so this function's result
is simultaneously the stored assignment and the caller's dict after the
constructor returns. -/
def expand_sample (m : IsingModel) (sample : QDict) : QDict :=
  dictUpdate sample m.clamped

/-- Reading `self.assignment[k]` (total on the variables a valid sample
covers). -/
def sampleLookup (d : QDict) : Var → ℚ := fun k => (dictLookup d k).getD 0

/-- `IsingSample.__init__` for a dict assignment: check the assignment covers
exactly the active variables, expand it with the clamped values, and cache
the energy. -/
def mkIsingSample (m : IsingModel) (assignment : QDict) (occurences : ℤ) :
    Except String IsingSample :=
  if m.vars \ (dictKeys assignment).toFinset ≠ ∅ then
    .error "Missing variables in the sample"
  else if (dictKeys assignment).toFinset \ m.vars ≠ ∅ then
    .error "Sample containes unexpected variables"
  else
    let expanded := expand_sample m assignment
    .ok { assignment := expanded, occurences := occurences,
          energy := compute_energy m (sampleLookup expanded) }

/-- `sorted(model.variables)`. -/
def sortedVariables (m : IsingModel) : List Var := m.vars.sort (· ≤ ·)

/-- `IsingSample.__init__` for a tuple/list assignment: zip the values with
the sorted active variables, then proceed as for a dict. -/
def mkIsingSampleTuple (m : IsingModel) (t : List ℚ) (occurences : ℤ) :
    Except String IsingSample :=
  mkIsingSample m (List.zip (sortedVariables m) t) occurences

lemma mkIsingSample_ok {m : IsingModel} {asg : QDict} {occ : ℤ} {s : IsingSample}
    (hok : mkIsingSample m asg occ = .ok s) :
    s = { assignment := expand_sample m asg, occurences := occ,
          energy := compute_energy m (sampleLookup (expand_sample m asg)) }
      ∧ m.vars \ (dictKeys asg).toFinset = ∅
      ∧ (dictKeys asg).toFinset \ m.vars = ∅ := by
  unfold mkIsingSample at hok
  by_cases h1 : m.vars \ (dictKeys asg).toFinset ≠ ∅
  · simp [h1] at hok
  · by_cases h2 : (dictKeys asg).toFinset \ m.vars ≠ ∅
    · simp [h1, h2] at hok
    · simp only [if_neg h1, if_neg h2, Except.ok.injEq] at hok
      exact ⟨hok.symm, not_not.mp h1, not_not.mp h2⟩

lemma dictLookup_dictUpdate_not_mem {κ : Type} [DecidableEq κ] {k : κ} :
    ∀ {other : List (κ × ℚ)} (l : List (κ × ℚ)), k ∉ dictKeys other →
      dictLookup (dictUpdate l other) k = dictLookup l k := by
  intro other
  induction other with
  | nil => intro l _; rfl
  | cons p rest ih =>
      intro l h
      simp only [dictKeys, List.map_cons, List.mem_cons, not_or] at h
      show dictLookup (dictUpdate (dictSet l p.1 p.2) rest) k = dictLookup l k
      rw [ih _ (by simpa [dictKeys] using h.2), dictLookup_set_ne h.1]

lemma dictLookup_dictUpdate_mem {κ : Type} [DecidableEq κ] {u : κ} {w : ℚ} :
    ∀ {other : List (κ × ℚ)} (l : List (κ × ℚ)), NodupKeys other →
      (u, w) ∈ other → dictLookup (dictUpdate l other) u = some w := by
  intro other
  induction other with
  | nil => intro l _ hm; cases hm
  | cons p rest ih =>
      intro l hnd hm
      have hnd0 : p.1 ∉ List.map Prod.fst rest ∧ (List.map Prod.fst rest).Nodup := by
        have h0 := hnd
        simp only [NodupKeys, dictKeys, List.map_cons, List.nodup_cons] at h0
        exact h0
      show dictLookup (dictUpdate (dictSet l p.1 p.2) rest) u = some w
      rcases List.mem_cons.mp hm with h | h
      · subst h
        rw [dictLookup_dictUpdate_not_mem _ (by simpa [dictKeys] using hnd0.1)]
        exact dictLookup_set_self _ _ _
      · exact ih _ hnd0.2 h


/-- The model `h = {}`, `J = {(0, 1): -2.5, (1, 2): 3}` of
`test_sample_energy`, as built by `IsingModel.__init__`. -/
def exModel2 : IsingModel :=
  { J := [((0, 1), -2.5), ((1, 2), 3)]
    h := []
    J_clamped := [((0, 1), -2.5), ((1, 2), 3)]
    h_clamped := []
    clamped := []
    energy_offset := 0
    vars := {0, 1, 2} }

lemma exModel2_mk : mkIsingModel [((0, 1), -2.5), ((1, 2), 3)] [] = .ok exModel2 := by
  have hvars : Jelements [((0, 1), (-2.5 : ℚ)), ((1, 2), 3)]
      ∪ (dictKeys ([] : QDict)).toFinset = ({0, 1, 2} : Finset ℕ) := by
    decide
  simp [mkIsingModel, Jupdate, Jset, sortPair, dictSet, List.foldlM, dictUpdate,
        List.foldl, bind, Except.bind, pure, Except.pure, exModel2, hvars]

/-- The sample `(-1, -1, 1)` of `exModel2` with its cached energy. -/
def exSample2 : IsingSample :=
  { assignment := [(0, -1), (1, -1), (2, 1)], occurences := 1, energy := -5.5 }

lemma exSample2_mk :
    mkIsingSample exModel2 [(0, -1), (1, -1), (2, 1)] 1 = .ok exSample2 := by
  unfold mkIsingSample exModel2 exSample2 expand_sample compute_energy
  norm_num [dictUpdate, dictKeys, sampleLookup, dictLookup, List.foldl, reduceMul]

/-- C2. The cached energy of every successfully constructed sample equals
`energy_offset` plus the sum over reduced quadratic terms of
`coupling * a[i] * a[j]` plus the sum over reduced linear terms of
`bias * a[k]`, evaluated on the *expanded* assignment; concretely, for the
model `h = {}`, `J = {(0,1): -2.5, (1,2): 3}` and the assignment
`(-1, -1, 1)` the energy is exactly `-5.5`. -/
theorem sample_energy_formula :
    (∀ (m : IsingModel) (asg : QDict) (occ : ℤ) (s : IsingSample),
        mkIsingSample m asg occ = .ok s →
        s.energy = m.energy_offset
          + (m.J_clamped.map (fun p =>
                p.2 * sampleLookup s.assignment p.1.1
                    * sampleLookup s.assignment p.1.2)).sum
          + (m.h_clamped.map (fun p => p.2 * sampleLookup s.assignment p.1)).sum) ∧
    (∃ s : IsingSample,
        mkIsingSample exModel2 [(0, -1), (1, -1), (2, 1)] 1 = .ok s ∧
        s.energy = -5.5) := by
  constructor
  · intro m asg occ s hok
    obtain ⟨rfl, -, -⟩ := mkIsingSample_ok hok
    dsimp only
    rw [compute_energy_eq]
    unfold sumJ sumH reduceMul
    congr 1
    exact congrArg List.sum
      (List.map_congr_left (fun (p : Var × ℚ) _ =>
        mul_comm (sampleLookup (expand_sample m asg) p.1) p.2))
  · exact ⟨exSample2, exSample2_mk, by unfold exSample2; norm_num⟩

/-- Witness for C2: the energy formula applied at the concrete model
`exModel2` and sample `(-1, -1, 1)`. -/
theorem sample_energy_formula_witness :
    exSample2.energy = exModel2.energy_offset
      + (exModel2.J_clamped.map (fun p =>
            p.2 * sampleLookup exSample2.assignment p.1.1
                * sampleLookup exSample2.assignment p.1.2)).sum
      + (exModel2.h_clamped.map (fun p => p.2 * sampleLookup exSample2.assignment p.1)).sum :=
  sample_energy_formula.1 exModel2 [(0, -1), (1, -1), (2, 1)] 1 exSample2 exSample2_mk

/-- C10. Constructing a Sample from a dict assignment mutates the caller's
dict in place: `expand_sample` runs `sample.update(model.clamped)` on the
very object the caller passed, so after a successful construction the
caller's dict (rendered here by explicit state passing as
`expand_sample m asg`, which is also the object stored in the sample) maps
every clamped variable to its clamped value while every key outside the
clamped set keeps the binding the caller gave it. -/
theorem expand_sample_mutates_caller (m : IsingModel) (asg : QDict) (occ : ℤ)
    (s : IsingSample) (hnd : NodupKeys m.clamped)
    (hok : mkIsingSample m asg occ = .ok s) :
    s.assignment = expand_sample m asg ∧
    (∀ u w, dictLookup m.clamped u = some w →
        dictLookup (expand_sample m asg) u = some w) ∧
    (∀ k, k ∉ dictKeys m.clamped →
        dictLookup (expand_sample m asg) k = dictLookup asg k) := by
  obtain ⟨rfl, -, -⟩ := mkIsingSample_ok hok
  refine ⟨rfl, ?_, ?_⟩
  · intro u w hlu
    exact dictLookup_dictUpdate_mem _ hnd (dictLookup_eq_some_mem hlu)
  · intro k hk
    exact dictLookup_dictUpdate_not_mem _ hk

/-- The concrete sample used by the C10 witness: `exModelClamped` (variable 0
clamped to +1) with caller dict `{1: -1, 2: 1}`. -/
def exSample10 : IsingSample :=
  { assignment := [(1, -1), (2, 1), (0, 1)], occurences := 1, energy := -11 }

lemma exSample10_mk :
    mkIsingSample exModelClamped [(1, -1), (2, 1)] 1 = .ok exSample10 := by
  unfold mkIsingSample exModelClamped exSample10 expand_sample compute_energy
  norm_num [dictUpdate, dictKeys, sampleLookup, dictLookup, dictSet,
            List.foldl, reduceMul]

/-- Witness for C10 at the concrete clamped model and caller dict. -/
theorem expand_sample_mutates_caller_witness :
    exSample10.assignment = expand_sample exModelClamped [(1, -1), (2, 1)] ∧
    (∀ u w, dictLookup exModelClamped.clamped u = some w →
        dictLookup (expand_sample exModelClamped [(1, -1), (2, 1)]) u = some w) ∧
    (∀ k, k ∉ dictKeys exModelClamped.clamped →
        dictLookup (expand_sample exModelClamped [(1, -1), (2, 1)]) k
          = dictLookup [(1, -1), (2, 1)] k) :=
  expand_sample_mutates_caller exModelClamped [(1, -1), (2, 1)] 1 exSample10
    (by decide) exSample10_mk

/-! ## Sample comparison (`__gt__`, `__eq__` and `functools.total_ordering`)

CPython 2 semantics (the codebase targets Python 2: it uses the
`dwave_sapi2` SDK and bare `reduce`): comparing two dicts first compares
their lengths, then, for dicts over the same key set, behaves as the
lexicographic comparison of the sorted item lists.  Tuples and lists compare
lexicographically, element by element. -/

/-- Python tuple comparison on a dict item `(key, value)`. -/
def pairLt (p q : Var × ℚ) : Prop := p.1 < q.1 ∨ (p.1 = q.1 ∧ p.2 < q.2)

instance : DecidableRel pairLt := fun p q => by unfold pairLt; infer_instance

/-- Python list comparison (first differing element decides, else length). -/
def itemsLt : List (Var × ℚ) → List (Var × ℚ) → Prop
  | [], [] => False
  | [], _ :: _ => True
  | _ :: _, [] => False
  | p :: ps, q :: qs => if p = q then itemsLt ps qs else pairLt p q

instance itemsLt.instDecidable : ∀ l1 l2, Decidable (itemsLt l1 l2)
  | [], [] => inferInstanceAs (Decidable False)
  | [], _ :: _ => inferInstanceAs (Decidable True)
  | _ :: _, [] => inferInstanceAs (Decidable False)
  | p :: ps, q :: qs =>
      letI := itemsLt.instDecidable ps qs
      inferInstanceAs (Decidable (if p = q then itemsLt ps qs else pairLt p q))

/-- Python list comparison on plain value tuples (used for `as_tuple`). -/
def valsLt : List ℚ → List ℚ → Prop
  | [], [] => False
  | [], _ :: _ => True
  | _ :: _, [] => False
  | x :: xs, y :: ys => if x = y then valsLt xs ys else x < y

/-- CPython 2 dict comparison, specialized to the same-key-set case relevant
to samples of one model: shorter dict first, then lexicographic on the
sorted items. -/
def dictLt (d1 d2 : QDict) : Prop :=
  if d1.length = d2.length then itemsLt (sortItems d1) (sortItems d2)
  else d1.length < d2.length

instance : DecidableRel dictLt := fun d1 d2 => by unfold dictLt; infer_instance

/-- `IsingSample.__gt__`: better means strictly lower energy, ties broken by
the Python dict comparison of the assignments. -/
def sampleGt (s other : IsingSample) : Prop :=
  if s.energy ≠ other.energy then s.energy < other.energy
  else dictLt s.assignment other.assignment

instance : DecidableRel sampleGt := fun s t => by unfold sampleGt; infer_instance

/-- `IsingSample.__eq__`: equality of the assignment dicts (with unique keys,
equality of dicts is equality of the sorted item lists). -/
def sampleEq (s other : IsingSample) : Prop :=
  sortItems s.assignment = sortItems other.assignment

instance : DecidableRel sampleEq := fun s t => by unfold sampleEq; infer_instance

/-- The `__lt__` that `functools.total_ordering` derives from `__gt__` and
`__eq__`: `not (self > other or self == other)`. -/
def sampleLt (s other : IsingSample) : Prop :=
  ¬ sampleGt s other ∧ ¬ sampleEq s other

instance : DecidableRel sampleLt := fun s t => by unfold sampleLt; infer_instance

lemma pairLt_asymm {p q : Var × ℚ} (h : pairLt p q) : ¬ pairLt q p := by
  rcases h with h | ⟨he, hv⟩
  · rintro (h' | ⟨he', -⟩)
    · exact absurd (h.trans h') (lt_irrefl _)
    · exact absurd h (he' ▸ lt_irrefl _)
  · rintro (h' | ⟨-, hv'⟩)
    · exact absurd h' (he ▸ lt_irrefl _)
    · exact absurd (hv.trans hv') (lt_irrefl _)

lemma pairLt_connex {p q : Var × ℚ} (h : p ≠ q) : pairLt p q ∨ pairLt q p := by
  rcases lt_trichotomy p.1 q.1 with h1 | h1 | h1
  · exact Or.inl (Or.inl h1)
  · rcases lt_trichotomy p.2 q.2 with h2 | h2 | h2
    · exact Or.inl (Or.inr ⟨h1, h2⟩)
    · exact absurd (Prod.ext h1 h2) h
    · exact Or.inr (Or.inr ⟨h1.symm, h2⟩)
  · exact Or.inr (Or.inl h1)

lemma pairLt_trans {p q r : Var × ℚ} (h1 : pairLt p q) (h2 : pairLt q r) :
    pairLt p r := by
  rcases h1 with h1 | ⟨he1, hv1⟩
  · rcases h2 with h2 | ⟨he2, -⟩
    · exact Or.inl (h1.trans h2)
    · exact Or.inl (he2 ▸ h1)
  · rcases h2 with h2 | ⟨he2, hv2⟩
    · exact Or.inl (he1 ▸ h2)
    · exact Or.inr ⟨he1.trans he2, hv1.trans hv2⟩

lemma itemsLt_irrefl : ∀ l, ¬ itemsLt l l := by
  intro l
  induction l with
  | nil => exact id
  | cons p rest ih => simpa [itemsLt] using ih

lemma itemsLt_asymm : ∀ {l1 l2}, itemsLt l1 l2 → ¬ itemsLt l2 l1 := by
  intro l1
  induction l1 with
  | nil =>
      intro l2 h
      cases l2 with
      | nil => exact absurd h (itemsLt_irrefl [])
      | cons q qs => exact fun h' => h'
  | cons p ps ih =>
      intro l2 h
      cases l2 with
      | nil => exact absurd h id
      | cons q qs =>
          by_cases hpq : p = q
          · subst hpq
            simp only [itemsLt, if_pos rfl] at h ⊢
            exact ih h
          · simp only [itemsLt, if_neg hpq, if_neg (Ne.symm hpq)] at h ⊢
            exact pairLt_asymm h

lemma itemsLt_connex : ∀ {l1 l2}, l1 ≠ l2 → itemsLt l1 l2 ∨ itemsLt l2 l1 := by
  intro l1
  induction l1 with
  | nil =>
      intro l2 h
      cases l2 with
      | nil => exact absurd rfl h
      | cons q qs => exact Or.inl trivial
  | cons p ps ih =>
      intro l2 h
      cases l2 with
      | nil => exact Or.inr trivial
      | cons q qs =>
          by_cases hpq : p = q
          · subst hpq
            have : ps ≠ qs := fun hh => h (by rw [hh])
            simpa [itemsLt] using ih this
          · simp only [itemsLt, if_neg hpq, if_neg (Ne.symm hpq)]
            exact pairLt_connex hpq

lemma itemsLt_trans : ∀ {l1 l2 l3}, itemsLt l1 l2 → itemsLt l2 l3 → itemsLt l1 l3 := by
  intro l1
  induction l1 with
  | nil =>
      intro l2 l3 h1 h2
      cases l2 with
      | nil => exact absurd h1 (itemsLt_irrefl [])
      | cons q qs =>
          cases l3 with
          | nil => exact absurd h2 id
          | cons r rs => exact trivial
  | cons p ps ih =>
      intro l2 l3 h1 h2
      cases l2 with
      | nil => exact absurd h1 id
      | cons q qs =>
          cases l3 with
          | nil => exact absurd h2 id
          | cons r rs =>
              by_cases hpq : p = q
              · subst hpq
                simp only [itemsLt, if_pos rfl] at h1
                by_cases hqr : p = r
                · subst hqr
                  simp only [itemsLt, if_pos rfl] at h2 ⊢
                  exact ih h1 h2
                · simp only [itemsLt, if_neg hqr] at h2 ⊢
                  exact h2
              · simp only [itemsLt, if_neg hpq] at h1
                by_cases hqr : q = r
                · subst hqr
                  simp only [itemsLt, if_neg hpq] at h2 ⊢
                  exact h1
                · simp only [itemsLt, if_neg hqr] at h2
                  have hpr : p ≠ r := by
                    intro hh
                    subst hh
                    exact pairLt_asymm h1 h2
                  simp only [itemsLt, if_neg hpr]
                  exact pairLt_trans h1 h2

/-! ## Permutation and sorting support lemmas -/

lemma sortItems_perm (d : QDict) : List.Perm (sortItems d) d :=
  List.perm_insertionSort pairLe d

lemma sortItems_length (d : QDict) : (sortItems d).length = d.length :=
  (sortItems_perm d).length_eq

lemma dictLookup_of_mem_nodup {κ : Type} [DecidableEq κ] :
    ∀ {l : List (κ × ℚ)} {k : κ} {w : ℚ}, NodupKeys l → (k, w) ∈ l →
      dictLookup l k = some w := by
  intro l
  induction l with
  | nil => intro k w _ hm; cases hm
  | cons p rest ih =>
      intro k w hnd hm
      have hnd0 : p.1 ∉ List.map Prod.fst rest ∧ (List.map Prod.fst rest).Nodup := by
        have h0 := hnd
        simp only [NodupKeys, dictKeys, List.map_cons, List.nodup_cons] at h0
        exact h0
      rcases List.mem_cons.mp hm with h | h
      · subst h
        simp [dictLookup]
      · have hk : p.1 ≠ k := by
          intro hh
          exact hnd0.1 (hh ▸ List.mem_map_of_mem Prod.fst h)
        simp only [dictLookup, if_neg hk]
        exact ih hnd0.2 h

lemma nodupKeys_of_perm {κ : Type} {l1 l2 : List (κ × ℚ)}
    (hperm : List.Perm l1 l2) (hnd : NodupKeys l1) : NodupKeys l2 :=
  (List.Perm.nodup_iff (hperm.map Prod.fst)).mp hnd

lemma dictLookup_eq_of_perm {κ : Type} [DecidableEq κ] {l1 l2 : List (κ × ℚ)}
    (hperm : List.Perm l1 l2) (hnd : NodupKeys l1) (k : κ) :
    dictLookup l1 k = dictLookup l2 k := by
  cases hlk : dictLookup l1 k with
  | some w =>
      exact (dictLookup_of_mem_nodup (nodupKeys_of_perm hperm hnd)
        (hperm.subset (dictLookup_eq_some_mem hlk))).symm
  | none =>
      have hk : k ∉ dictKeys l1 := by
        intro hmem
        obtain ⟨w, hw⟩ := mem_dictKeys_lookup hmem
        rw [hlk] at hw
        cases hw
      have hk2 : k ∉ dictKeys l2 := fun hmem =>
        hk ((hperm.map Prod.fst).mem_iff.mpr hmem)
      rw [dictLookup_eq_none_of_not_mem hk2]

lemma dictKeys_dictSet_subset {κ : Type} [DecidableEq κ] :
    ∀ (l : List (κ × ℚ)) (k : κ) (v : ℚ),
      dictKeys (dictSet l k v) ⊆ k :: dictKeys l := by
  intro l
  induction l with
  | nil => intro k v; simp [dictSet, dictKeys]
  | cons q rs ih =>
      intro k v
      simp only [dictSet]
      by_cases hq : q.1 = k
      · rw [if_pos hq]
        simp only [dictKeys, List.map_cons]
        intro x hx
        rcases List.mem_cons.mp hx with h | h
        · exact h ▸ List.mem_cons_self _ _
        · exact List.mem_cons_of_mem _ (List.mem_cons_of_mem _ h)
      · rw [if_neg hq]
        simp only [dictKeys, List.map_cons]
        intro x hx
        rcases List.mem_cons.mp hx with h | h
        · exact List.mem_cons_of_mem _ (h ▸ List.mem_cons_self _ _)
        · rcases List.mem_cons.mp (ih k v h) with h' | h'
          · exact h' ▸ List.mem_cons_self _ _
          · exact List.mem_cons_of_mem _ (List.mem_cons_of_mem _ h')

lemma nodupKeys_dictSet {κ : Type} [DecidableEq κ] :
    ∀ {l : List (κ × ℚ)} (k : κ) (v : ℚ), NodupKeys l → NodupKeys (dictSet l k v) := by
  intro l
  induction l with
  | nil =>
      intro k v _
      simp [dictSet, NodupKeys, dictKeys]
  | cons p rest ih =>
      intro k v hnd
      have hnd0 : p.1 ∉ List.map Prod.fst rest ∧ (List.map Prod.fst rest).Nodup := by
        have h0 := hnd
        simp only [NodupKeys, dictKeys, List.map_cons, List.nodup_cons] at h0
        exact h0
      simp only [dictSet]
      by_cases hk : p.1 = k
      · rw [if_pos hk]
        subst hk
        simpa [NodupKeys, dictKeys] using hnd0
      · rw [if_neg hk]
        have := ih k v hnd0.2
        simp only [NodupKeys, dictKeys, List.map_cons, List.nodup_cons] at this ⊢
        refine ⟨?_, this⟩
        intro hmem
        rcases List.mem_cons.mp (dictKeys_dictSet_subset rest k v hmem) with h | h
        · exact hk h
        · exact hnd0.1 h

lemma nodupKeys_dictUpdate {κ : Type} [DecidableEq κ] :
    ∀ (other l : List (κ × ℚ)), NodupKeys l → NodupKeys (dictUpdate l other) := by
  intro other
  induction other with
  | nil => intro l h; exact h
  | cons p rest ih =>
      intro l h
      exact ih _ (nodupKeys_dictSet p.1 p.2 h)

lemma dictLt_asymm {d1 d2 : QDict} (h : dictLt d1 d2) : ¬ dictLt d2 d1 := by
  unfold dictLt at *
  by_cases hl : d1.length = d2.length
  · rw [if_pos hl] at h
    rw [if_pos hl.symm]
    exact itemsLt_asymm h
  · rw [if_neg hl] at h
    rw [if_neg (fun hh => hl hh.symm)]
    exact Nat.lt_asymm h

lemma dictLt_connex {d1 d2 : QDict} (h : sortItems d1 ≠ sortItems d2) :
    dictLt d1 d2 ∨ dictLt d2 d1 := by
  unfold dictLt
  by_cases hl : d1.length = d2.length
  · rw [if_pos hl, if_pos hl.symm]
    exact itemsLt_connex h
  · rw [if_neg hl, if_neg (fun hh => hl hh.symm)]
    exact (Nat.lt_or_ge d1.length d2.length).imp id
      (fun hge => lt_of_le_of_ne hge (fun hh => hl hh.symm))

lemma dictLt_irrefl_of_items {d1 d2 : QDict} (h : sortItems d1 = sortItems d2) :
    ¬ dictLt d1 d2 := by
  have hlen : d1.length = d2.length := by
    rw [← sortItems_length d1, ← sortItems_length d2, h]
  unfold dictLt
  rw [if_pos hlen, h]
  exact itemsLt_irrefl _

lemma dictLt_trans {d1 d2 d3 : QDict} (h1 : dictLt d1 d2) (h2 : dictLt d2 d3) :
    dictLt d1 d3 := by
  unfold dictLt at *
  by_cases h12 : d1.length = d2.length
  · rw [if_pos h12] at h1
    by_cases h23 : d2.length = d3.length
    · rw [if_pos h23] at h2
      rw [if_pos (h12.trans h23)]
      exact itemsLt_trans h1 h2
    · rw [if_neg h23] at h2
      rw [if_neg (fun hh => h23 (h12 ▸ hh)), h12]
      exact h2
  · rw [if_neg h12] at h1
    by_cases h23 : d2.length = d3.length
    · rw [if_pos h23] at h2
      have hlt : d1.length < d3.length := h23 ▸ h1
      rw [if_neg (Nat.ne_of_lt hlt)]
      exact hlt
    · rw [if_neg h23] at h2
      have hlt : d1.length < d3.length := h1.trans h2
      rw [if_neg (Nat.ne_of_lt hlt)]
      exact hlt

lemma dictLt_congr_right {d1 d2 d3 : QDict} (h : sortItems d2 = sortItems d3) :
    dictLt d1 d2 ↔ dictLt d1 d3 := by
  have hlen : d2.length = d3.length := by
    rw [← sortItems_length d2, ← sortItems_length d3, h]
  unfold dictLt
  rw [hlen, h]

lemma dictLt_congr_left {d1 d2 d3 : QDict} (h : sortItems d1 = sortItems d2) :
    dictLt d1 d3 ↔ dictLt d2 d3 := by
  have hlen : d1.length = d2.length := by
    rw [← sortItems_length d1, ← sortItems_length d2, h]
  unfold dictLt
  rw [hlen, h]

lemma sampleGt_asymm {a b : IsingSample} (h : sampleGt a b) : ¬ sampleGt b a := by
  unfold sampleGt at *
  by_cases hE : a.energy = b.energy
  · rw [if_neg (not_not_intro hE)] at h
    rw [if_neg (not_not_intro hE.symm)]
    exact dictLt_asymm h
  · rw [if_pos hE] at h
    rw [if_pos (Ne.symm hE)]
    exact lt_asymm h

lemma sampleGt_trans {a b c : IsingSample} (h1 : sampleGt a b) (h2 : sampleGt b c) :
    sampleGt a c := by
  unfold sampleGt at *
  by_cases hab : a.energy = b.energy
  · rw [if_neg (not_not_intro hab)] at h1
    by_cases hbc : b.energy = c.energy
    · rw [if_neg (not_not_intro hbc)] at h2
      rw [if_neg (not_not_intro (hab.trans hbc))]
      exact dictLt_trans h1 h2
    · rw [if_pos hbc] at h2
      have : a.energy < c.energy := hab ▸ h2
      rw [if_pos (ne_of_lt this)]
      exact this
  · rw [if_pos hab] at h1
    by_cases hbc : b.energy = c.energy
    · have : a.energy < c.energy := hbc ▸ h1
      rw [if_pos (ne_of_lt this)]
      exact this
    · rw [if_pos hbc] at h2
      have : a.energy < c.energy := h1.trans h2
      rw [if_pos (ne_of_lt this)]
      exact this

lemma sampleGt_congr_right {a b c : IsingSample} (h : sampleEq b c)
    (hE : b.energy = c.energy) : sampleGt a b ↔ sampleGt a c := by
  unfold sampleGt
  rw [hE]
  by_cases hc : a.energy ≠ c.energy
  · rw [if_pos hc, if_pos hc]
  · rw [if_neg hc, if_neg hc]
    exact dictLt_congr_right h

lemma sampleGt_congr_left {a b c : IsingSample} (h : sampleEq a b)
    (hE : a.energy = b.energy) : sampleGt a c ↔ sampleGt b c := by
  unfold sampleGt
  rw [hE]
  by_cases hc : b.energy ≠ c.energy
  · rw [if_pos hc, if_pos hc]
  · rw [if_neg hc, if_neg hc]
    exact dictLt_congr_left h

lemma not_sampleGt_of_eq {a b : IsingSample} (heq : sampleEq a b)
    (hE : a.energy = b.energy) : ¬ sampleGt a b := by
  unfold sampleGt
  rw [if_neg (not_not_intro hE)]
  exact dictLt_irrefl_of_items heq

lemma sampleGt_or {a b : IsingSample} (hne : ¬ sampleEq a b) :
    sampleGt a b ∨ sampleGt b a := by
  unfold sampleGt
  by_cases hE : a.energy = b.energy
  · rw [if_neg (not_not_intro hE), if_neg (not_not_intro hE.symm)]
    exact dictLt_connex hne
  · rcases lt_or_gt_of_ne hE with h | h
    · rw [if_pos hE]
      exact Or.inl h
    · rw [if_pos (Ne.symm hE)]
      exact Or.inr h

/-- The priority relation a descending Python sort uses between consecutive
elements: the earlier element is not `__lt__` the later one. -/
def sampleGe (s other : IsingSample) : Prop := ¬ sampleLt s other

instance : DecidableRel sampleGe := fun s t => by unfold sampleGe; infer_instance

lemma sampleGe_iff (a b : IsingSample) :
    sampleGe a b ↔ sampleGt a b ∨ sampleEq a b := by
  unfold sampleGe sampleLt
  rw [not_and_or, not_not, not_not]

lemma sampleGe_total (a b : IsingSample) : sampleGe a b ∨ sampleGe b a := by
  rw [sampleGe_iff, sampleGe_iff]
  by_cases heq : sampleEq a b
  · exact Or.inl (Or.inr heq)
  · rcases sampleGt_or heq with h | h
    · exact Or.inl (Or.inl h)
    · exact Or.inr (Or.inl h)

lemma sampleGe_trans {a b c : IsingSample}
    (cohab : sampleEq a b → a.energy = b.energy)
    (cohbc : sampleEq b c → b.energy = c.energy)
    (hab : sampleGe a b) (hbc : sampleGe b c) : sampleGe a c := by
  rw [sampleGe_iff] at hab hbc ⊢
  rcases hab with hab | hab
  · rcases hbc with hbc | hbc
    · exact Or.inl (sampleGt_trans hab hbc)
    · exact Or.inl ((sampleGt_congr_right hbc (cohbc hbc)).mp hab)
  · rcases hbc with hbc | hbc
    · exact Or.inl ((sampleGt_congr_left hab (cohab hab)).mpr hbc)
    · exact Or.inr (hab.trans hbc)

/-- Two samples of the same model with equal assignments have equal (cached)
energies: the energy is a function of the expanded assignment only. -/
lemma mk_sample_coherent {m : IsingModel} {asg1 asg2 : QDict} {occ1 occ2 : ℤ}
    {s1 s2 : IsingSample} (hnd1 : NodupKeys asg1)
    (hok1 : mkIsingSample m asg1 occ1 = .ok s1)
    (hok2 : mkIsingSample m asg2 occ2 = .ok s2)
    (heq : sampleEq s1 s2) : s1.energy = s2.energy := by
  obtain ⟨rfl, -, -⟩ := mkIsingSample_ok hok1
  obtain ⟨rfl, -, -⟩ := mkIsingSample_ok hok2
  unfold sampleEq at heq
  dsimp only at heq ⊢
  have hnd : NodupKeys (expand_sample m asg1) := nodupKeys_dictUpdate _ _ hnd1
  have hperm : List.Perm (expand_sample m asg1) (expand_sample m asg2) :=
    ((sortItems_perm (expand_sample m asg1)).symm.trans
      (heq ▸ sortItems_perm (expand_sample m asg2)))
  have hlk := dictLookup_eq_of_perm hperm hnd
  congr 1
  funext k
  unfold sampleLookup
  rw [hlk k]

lemma dictKeys_dictSet_toFinset {κ : Type} [DecidableEq κ] :
    ∀ (l : List (κ × ℚ)) (k : κ) (v : ℚ),
      (dictKeys (dictSet l k v)).toFinset = insert k (dictKeys l).toFinset := by
  intro l
  induction l with
  | nil => intro k v; simp [dictSet, dictKeys]
  | cons p rest ih =>
      intro k v
      simp only [dictSet]
      by_cases hp : p.1 = k
      · rw [if_pos hp]
        subst hp
        simp [dictKeys]
      · rw [if_neg hp]
        simp only [dictKeys, List.map_cons, List.toFinset_cons] at ih ⊢
        rw [ih k v]
        ext x
        simp [or_left_comm]

lemma dictKeys_dictUpdate_toFinset {κ : Type} [DecidableEq κ] :
    ∀ (other l : List (κ × ℚ)),
      (dictKeys (dictUpdate l other)).toFinset
        = (dictKeys l).toFinset ∪ (dictKeys other).toFinset := by
  intro other
  induction other with
  | nil => intro l; simp [dictUpdate, dictKeys]
  | cons p rest ih =>
      intro l
      show (dictKeys (dictUpdate (dictSet l p.1 p.2) rest)).toFinset = _
      rw [ih (dictSet l p.1 p.2), dictKeys_dictSet_toFinset]
      simp only [dictKeys, List.map_cons, List.toFinset_cons]
      rw [Finset.insert_union, Finset.union_insert]

lemma sorted_sortItems (d : QDict) : (sortItems d).Sorted pairLe :=
  List.sorted_insertionSort pairLe d

/-- For two samples of one model, the sorted key sequences of the expanded
assignments coincide (both enumerate active plus clamped variables). -/
lemma mk_sample_keys_eq {m : IsingModel} {asg1 asg2 : QDict} {occ1 occ2 : ℤ}
    {s1 s2 : IsingSample} (hnd1 : NodupKeys asg1) (hnd2 : NodupKeys asg2)
    (hok1 : mkIsingSample m asg1 occ1 = .ok s1)
    (hok2 : mkIsingSample m asg2 occ2 = .ok s2) :
    (sortItems s1.assignment).map Prod.fst
      = (sortItems s2.assignment).map Prod.fst := by
  obtain ⟨rfl, hm1, he1⟩ := mkIsingSample_ok hok1
  obtain ⟨rfl, hm2, he2⟩ := mkIsingSample_ok hok2
  dsimp only
  have hset1 : (dictKeys asg1).toFinset = m.vars :=
    (Finset.sdiff_eq_empty_iff_subset.mp he1).antisymm
      (Finset.sdiff_eq_empty_iff_subset.mp hm1)
  have hset2 : (dictKeys asg2).toFinset = m.vars :=
    (Finset.sdiff_eq_empty_iff_subset.mp he2).antisymm
      (Finset.sdiff_eq_empty_iff_subset.mp hm2)
  have hndE1 : NodupKeys (expand_sample m asg1) := nodupKeys_dictUpdate _ _ hnd1
  have hndE2 : NodupKeys (expand_sample m asg2) := nodupKeys_dictUpdate _ _ hnd2
  have hkeysfin : ∀ (asg : QDict), (dictKeys asg).toFinset = m.vars →
      (dictKeys (expand_sample m asg)).toFinset
        = m.vars ∪ (dictKeys m.clamped).toFinset := by
    intro asg hset
    unfold expand_sample
    rw [dictKeys_dictUpdate_toFinset, hset]
  have hnodup1 : ((sortItems (expand_sample m asg1)).map Prod.fst).Nodup :=
    (List.Perm.nodup_iff ((sortItems_perm _).map Prod.fst)).mpr hndE1
  have hnodup2 : ((sortItems (expand_sample m asg2)).map Prod.fst).Nodup :=
    (List.Perm.nodup_iff ((sortItems_perm _).map Prod.fst)).mpr hndE2
  have hfin : ((sortItems (expand_sample m asg1)).map Prod.fst).toFinset
      = ((sortItems (expand_sample m asg2)).map Prod.fst).toFinset := by
    rw [List.toFinset_eq_of_perm _ _ ((sortItems_perm _).map Prod.fst),
        List.toFinset_eq_of_perm _ _ ((sortItems_perm _).map Prod.fst)]
    show (dictKeys (expand_sample m asg1)).toFinset
        = (dictKeys (expand_sample m asg2)).toFinset
    rw [hkeysfin asg1 hset1, hkeysfin asg2 hset2]
  have hle : ∀ a b : Var × ℚ, pairLe a b → a.1 ≤ b.1 := by
    intro a b hab
    rcases hab with h | ⟨h, -⟩
    · exact le_of_lt h
    · exact le_of_eq h
  have hsorted1 : ((sortItems (expand_sample m asg1)).map Prod.fst).Sorted (· ≤ ·) :=
    List.Pairwise.map Prod.fst hle (sorted_sortItems _)
  have hsorted2 : ((sortItems (expand_sample m asg2)).map Prod.fst).Sorted (· ≤ ·) :=
    List.Pairwise.map Prod.fst hle (sorted_sortItems _)
  exact List.eq_of_perm_of_sorted
    (List.perm_of_nodup_nodup_toFinset_eq hnodup1 hnodup2 hfin) hsorted1 hsorted2

lemma itemsLt_iff_valsLt :
    ∀ {l1 l2 : List (Var × ℚ)}, l1.map Prod.fst = l2.map Prod.fst →
      (itemsLt l1 l2 ↔ valsLt (l1.map Prod.snd) (l2.map Prod.snd)) := by
  intro l1
  induction l1 with
  | nil =>
      intro l2 h
      cases l2 with
      | nil => simp [itemsLt, valsLt]
      | cons q qs => simp at h
  | cons p ps ih =>
      intro l2 h
      cases l2 with
      | nil => simp at h
      | cons q qs =>
          simp only [List.map_cons, List.cons.injEq] at h
          obtain ⟨hk, hks⟩ := h
          simp only [List.map_cons, itemsLt, valsLt]
          by_cases hv : p.2 = q.2
          · have hpq : p = q := Prod.ext hk hv
            rw [if_pos hpq, if_pos hv]
            exact ih hks
          · have hpq : p ≠ q := fun hh => hv (congrArg Prod.snd hh)
            rw [if_neg hpq, if_neg hv]
            unfold pairLt
            constructor
            · rintro (h | ⟨-, h⟩)
              · exact absurd hk (ne_of_lt h)
              · exact h
            · intro h
              exact Or.inr ⟨hk, h⟩

lemma sorted_orderedInsert_local {α : Type} (r : α → α → Prop) [DecidableRel r]
    (a : α) : ∀ (l : List α),
      (∀ x ∈ a :: l, ∀ y ∈ a :: l, r x y ∨ r y x) →
      (∀ x ∈ a :: l, ∀ y ∈ a :: l, ∀ z ∈ a :: l, r x y → r y z → r x z) →
      l.Sorted r → (l.orderedInsert r a).Sorted r := by
  intro l
  induction l with
  | nil => intro _ _ _; simp [List.orderedInsert]
  | cons b t ih =>
      intro htot htrans hsort
      simp only [List.orderedInsert]
      by_cases hab : r a b
      · rw [if_pos hab, List.sorted_cons]
        refine ⟨?_, hsort⟩
        intro y hy
        rcases List.mem_cons.mp hy with rfl | hy'
        · exact hab
        · exact htrans a (List.mem_cons_self _ _)
            b (List.mem_cons_of_mem _ (List.mem_cons_self _ _))
            y (List.mem_cons_of_mem _ (List.mem_cons_of_mem _ hy'))
            hab ((List.sorted_cons.mp hsort).1 y hy')
      · rw [if_neg hab, List.sorted_cons]
        have hsub : ∀ x, x ∈ a :: t → x ∈ a :: b :: t := by
          intro x hx
          rcases List.mem_cons.mp hx with rfl | h
          · exact List.mem_cons_self _ _
          · exact List.mem_cons_of_mem _ (List.mem_cons_of_mem _ h)
        constructor
        · intro y hy
          rcases (List.mem_orderedInsert r).mp hy with hya | hy'
          · rw [hya]
            rcases htot a (List.mem_cons_self _ _)
              b (List.mem_cons_of_mem _ (List.mem_cons_self _ _)) with h | h
            · exact absurd h hab
            · exact h
          · exact (List.sorted_cons.mp hsort).1 y hy'
        · exact ih (fun x hx y hy => htot x (hsub x hx) y (hsub y hy))
            (fun x hx y hy z hz => htrans x (hsub x hx) y (hsub y hy) z (hsub z hz))
            (List.sorted_cons.mp hsort).2

lemma sorted_insertionSort_local {α : Type} (r : α → α → Prop) [DecidableRel r] :
    ∀ (l : List α),
      (∀ x ∈ l, ∀ y ∈ l, r x y ∨ r y x) →
      (∀ x ∈ l, ∀ y ∈ l, ∀ z ∈ l, r x y → r y z → r x z) →
      (l.insertionSort r).Sorted r := by
  intro l
  induction l with
  | nil => intro _ _; simp [List.insertionSort]
  | cons a t ih =>
      intro htot htrans
      simp only [List.insertionSort]
      have hmem : ∀ x ∈ a :: t.insertionSort r, x ∈ a :: t := by
        intro x hx
        rcases List.mem_cons.mp hx with rfl | h
        · exact List.mem_cons_self _ _
        · exact List.mem_cons_of_mem _ ((List.perm_insertionSort r t).subset h)
      exact sorted_orderedInsert_local r a (t.insertionSort r)
        (fun x hx y hy => htot x (hmem x hx) y (hmem y hy))
        (fun x hx y hy z hz => htrans x (hmem x hx) y (hmem y hy) z (hmem z hz))
        (ih (fun x hx y hy =>
              htot x (List.mem_cons_of_mem _ hx) y (List.mem_cons_of_mem _ hy))
            (fun x hx y hy z hz =>
              htrans x (List.mem_cons_of_mem _ hx) y (List.mem_cons_of_mem _ hy)
                z (List.mem_cons_of_mem _ hz)))

/-- `SamplePool.n_best(number)`: `heapq.nlargest(number, self.heap)`, i.e. the
pool sorted descending under the sample order, best (lowest-energy) first,
truncated to `number` entries. -/
def n_best (pool : List IsingSample) (number : ℕ) : List IsingSample :=
  (pool.insertionSort sampleGe).take number

/-- C3. The sample comparison of `data.py` is a total order on the samples of
one model: for every pair, exactly one of less-than, equal and greater-than
holds; when energies tie, "greater" (more favorable) is decided by the
lexicographic (Python list) comparison of the `as_tuple` value sequences over
the fixed sorted variable order.  `n_best(n)` returns `min n size` samples,
sorted most-favorable (lowest energy) first, and no sample left behind beats
a returned one; ties are broken deterministically by the assignment order. -/
theorem sample_order_and_n_best :
    (∀ (m : IsingModel) (asg1 asg2 : QDict) (occ1 occ2 : ℤ) (s1 s2 : IsingSample),
        NodupKeys asg1 → NodupKeys asg2 →
        mkIsingSample m asg1 occ1 = .ok s1 → mkIsingSample m asg2 occ2 = .ok s2 →
        ((sampleLt s1 s2 ∨ sampleEq s1 s2 ∨ sampleGt s1 s2) ∧
         ¬ (sampleLt s1 s2 ∧ sampleEq s1 s2) ∧
         ¬ (sampleLt s1 s2 ∧ sampleGt s1 s2) ∧
         ¬ (sampleEq s1 s2 ∧ sampleGt s1 s2)) ∧
        (s1.energy = s2.energy →
          (sampleGt s1 s2 ↔ valsLt (as_tuple s1.assignment) (as_tuple s2.assignment)))) ∧
    (∀ (pool : List IsingSample) (n : ℕ),
        (∀ s ∈ pool, ∀ t ∈ pool, sampleEq s t → s.energy = t.energy) →
        ∃ rest : List IsingSample,
          List.Perm (n_best pool n ++ rest) pool ∧
          (n_best pool n).length = min n pool.length ∧
          (n_best pool n).Sorted sampleGe ∧
          ∀ x ∈ n_best pool n, ∀ y ∈ rest, ¬ sampleGt y x) := by
  constructor
  · intro m asg1 asg2 occ1 occ2 s1 s2 hnd1 hnd2 hok1 hok2
    have hcoh : sampleEq s1 s2 → s1.energy = s2.energy :=
      mk_sample_coherent hnd1 hok1 hok2
    constructor
    · refine ⟨?_, ?_, ?_, ?_⟩
      · by_cases heq : sampleEq s1 s2
        · exact Or.inr (Or.inl heq)
        · rcases sampleGt_or heq with h | h
          · exact Or.inr (Or.inr h)
          · exact Or.inl ⟨sampleGt_asymm h, heq⟩
      · rintro ⟨⟨-, hne⟩, heq⟩
        exact hne heq
      · rintro ⟨⟨hng, -⟩, hgt⟩
        exact hng hgt
      · rintro ⟨heq, hgt⟩
        exact not_sampleGt_of_eq heq (hcoh heq) hgt
    · intro hE
      have hkeys := mk_sample_keys_eq hnd1 hnd2 hok1 hok2
      have hlen : s1.assignment.length = s2.assignment.length := by
        have hl := congrArg List.length hkeys
        simpa [List.length_map, sortItems_length] using hl
      unfold sampleGt dictLt
      rw [if_neg (not_not_intro hE), if_pos hlen]
      unfold as_tuple
      exact itemsLt_iff_valsLt hkeys
  · intro pool n hcoh
    have hperm : List.Perm (pool.insertionSort sampleGe) pool :=
      List.perm_insertionSort sampleGe pool
    have hsorted : (pool.insertionSort sampleGe).Sorted sampleGe :=
      sorted_insertionSort_local sampleGe pool
        (fun x _ y _ => sampleGe_total x y)
        (fun x hx y hy z hz => sampleGe_trans (hcoh x hx y hy) (hcoh y hy z hz))
    refine ⟨(pool.insertionSort sampleGe).drop n, ?_, ?_, ?_, ?_⟩
    · show List.Perm ((pool.insertionSort sampleGe).take n
          ++ (pool.insertionSort sampleGe).drop n) pool
      rw [List.take_append_drop]
      exact hperm
    · show ((pool.insertionSort sampleGe).take n).length = min n pool.length
      rw [List.length_take, hperm.length_eq]
    · exact List.Pairwise.sublist (List.take_sublist _ _) hsorted
    · intro x hx y hy
      have hR : sampleGe x y := hsorted.rel_of_mem_take_of_mem_drop hx hy
      rw [sampleGe_iff] at hR
      rcases hR with h | h
      · exact sampleGt_asymm h
      · have hxmem : x ∈ pool := hperm.subset (List.mem_of_mem_take hx)
        have hymem : y ∈ pool := hperm.subset (List.mem_of_mem_drop hy)
        have hExy : x.energy = y.energy := hcoh x hxmem y hymem h
        exact not_sampleGt_of_eq (Eq.symm h) hExy.symm

/-- The sample `(1, 1, 1)` of `exModel2` with its cached energy. -/
def exSample3 : IsingSample :=
  { assignment := [(0, 1), (1, 1), (2, 1)], occurences := 1, energy := 0.5 }

lemma exSample3_mk :
    mkIsingSample exModel2 [(0, 1), (1, 1), (2, 1)] 1 = .ok exSample3 := by
  unfold mkIsingSample exModel2 exSample3 expand_sample compute_energy
  norm_num [dictUpdate, dictKeys, sampleLookup, dictLookup, List.foldl, reduceMul]

/-- Witness for C3: trichotomy at two concrete samples of `exModel2`, and the
`n_best` guarantees at a concrete one-sample pool. -/
theorem sample_order_and_n_best_witness :
    (((sampleLt exSample2 exSample3 ∨ sampleEq exSample2 exSample3 ∨
        sampleGt exSample2 exSample3) ∧
      ¬ (sampleLt exSample2 exSample3 ∧ sampleEq exSample2 exSample3) ∧
      ¬ (sampleLt exSample2 exSample3 ∧ sampleGt exSample2 exSample3) ∧
      ¬ (sampleEq exSample2 exSample3 ∧ sampleGt exSample2 exSample3)) ∧
     (exSample2.energy = exSample3.energy →
       (sampleGt exSample2 exSample3 ↔
         valsLt (as_tuple exSample2.assignment) (as_tuple exSample3.assignment)))) ∧
    (∃ rest : List IsingSample,
      List.Perm (n_best [exSample2] 1 ++ rest) [exSample2] ∧
      (n_best [exSample2] 1).length = min 1 [exSample2].length ∧
      (n_best [exSample2] 1).Sorted sampleGe ∧
      ∀ x ∈ n_best [exSample2] 1, ∀ y ∈ rest, ¬ sampleGt y x) := by
  constructor
  · exact sample_order_and_n_best.1 exModel2 [(0, -1), (1, -1), (2, 1)]
      [(0, 1), (1, 1), (2, 1)] 1 1 exSample2 exSample3 (by decide) (by decide)
      exSample2_mk exSample3_mk
  · refine sample_order_and_n_best.2 [exSample2] 1 ?_
    intro s hs t ht heq
    rcases List.mem_singleton.mp hs with rfl
    rcases List.mem_singleton.mp ht with rfl
    rfl

/-! ## `SamplePool` of `data.py`

The pool keeps a heap plus a side dict keyed by `as_tuple`; the dict always
mirrors the heap's contents, so the embedding keeps the heap list alone and
renders the dict membership test as a search by `as_tuple`.  The heap-internal
order is abstracted as insertion order: every observation the claims verify
(dedup, occurrence totals, `n_best`, histogram, mean) is invariant under
permutation of the heap. -/

/-- Key of a sample in the pool's side dict: `sample.as_tuple`. -/
def poolKey (s : IsingSample) : List ℚ := as_tuple s.assignment

/-- `present.occurences += int(sample.occurences)` on the unique pooled sample
with the given key (`int()` is the identity on Python ints). -/
def poolBump : List IsingSample → List ℚ → ℤ → List IsingSample
  | [], _, _ => []
  | t :: rest, key, n =>
      if poolKey t = key then { t with occurences := t.occurences + n } :: rest
      else t :: poolBump rest key n

/-- `SamplePool.add`: merge into an equal-assignment sample if one is pooled,
else insert. -/
def pool_add (pool : List IsingSample) (sample : IsingSample) : List IsingSample :=
  if ∃ t ∈ pool, poolKey t = poolKey sample then
    poolBump pool (poolKey sample) sample.occurences
  else pool ++ [sample]

/-- `SamplePool.__len__`: the sum of the occurrence counts. -/
def pool_len (pool : List IsingSample) : ℤ :=
  (pool.map (fun s => s.occurences)).sum

lemma poolBump_map_key (key : List ℚ) (n : ℤ) :
    ∀ (pool : List IsingSample), (poolBump pool key n).map poolKey = pool.map poolKey := by
  intro pool
  induction pool with
  | nil => rfl
  | cons t rest ih =>
      simp only [poolBump]
      by_cases ht : poolKey t = key
      · rw [if_pos ht]
        simp only [List.map_cons]
        congr 1
      · rw [if_neg ht]
        simp only [List.map_cons, ih]

lemma poolBump_len (key : List ℚ) (n : ℤ) :
    ∀ (pool : List IsingSample), (∃ t ∈ pool, poolKey t = key) →
      pool_len (poolBump pool key n) = pool_len pool + n := by
  intro pool
  induction pool with
  | nil => rintro ⟨t, ht, -⟩; cases ht
  | cons u rest ih =>
      rintro ⟨t, ht, hkey⟩
      simp only [poolBump]
      by_cases hu : poolKey u = key
      · rw [if_pos hu]
        simp only [pool_len, List.map_cons, List.sum_cons]
        ring
      · rw [if_neg hu]
        have ht' : t ∈ rest := by
          rcases List.mem_cons.mp ht with rfl | h
          · exact absurd hkey hu
          · exact h
        simp only [pool_len, List.map_cons, List.sum_cons] at ih ⊢
        rw [ih ⟨t, ht', hkey⟩]
        ring

lemma pool_add_len (pool : List IsingSample) (s : IsingSample) :
    pool_len (pool_add pool s) = pool_len pool + s.occurences := by
  unfold pool_add
  by_cases hmem : ∃ t ∈ pool, poolKey t = poolKey s
  · rw [if_pos hmem]
    exact poolBump_len _ _ pool hmem
  · rw [if_neg hmem]
    simp [pool_len]

lemma pool_add_nodup (pool : List IsingSample) (s : IsingSample)
    (hnd : (pool.map poolKey).Nodup) : ((pool_add pool s).map poolKey).Nodup := by
  unfold pool_add
  by_cases hmem : ∃ t ∈ pool, poolKey t = poolKey s
  · rw [if_pos hmem, poolBump_map_key]
    exact hnd
  · rw [if_neg hmem]
    rw [List.map_append]
    simp only [List.map_cons, List.map_nil]
    rw [List.nodup_append]
    refine ⟨hnd, List.nodup_singleton _, ?_⟩
    intro x hx hxs
    rcases List.mem_singleton.mp hxs with rfl
    obtain ⟨t, ht, hkey⟩ := List.mem_map.mp hx
    exact hmem ⟨t, ht, hkey⟩

lemma poolBump_mem {pool : List IsingSample} {t : IsingSample} {n : ℤ}
    (hnd : (pool.map poolKey).Nodup) (ht : t ∈ pool) :
    { t with occurences := t.occurences + n } ∈ poolBump pool (poolKey t) n := by
  induction pool with
  | nil => cases ht
  | cons u rest ih =>
      have hnd0 : poolKey u ∉ rest.map poolKey ∧ (rest.map poolKey).Nodup := by
        have h0 := hnd
        simp only [List.map_cons, List.nodup_cons] at h0
        exact h0
      simp only [poolBump]
      by_cases hu : poolKey u = poolKey t
      · rw [if_pos hu]
        have htu : t = u := by
          rcases List.mem_cons.mp ht with rfl | h
          · rfl
          · exact absurd (hu ▸ List.mem_map_of_mem poolKey h) hnd0.1
        rw [htu]
        exact List.mem_cons_self _ _
      · rw [if_neg hu]
        have ht' : t ∈ rest := by
          rcases List.mem_cons.mp ht with rfl | h
          · exact absurd rfl hu
          · exact h
        exact List.mem_cons_of_mem _ (ih hnd0.2 ht')

lemma poolBump_length (key : List ℚ) (n : ℤ) :
    ∀ (pool : List IsingSample), (poolBump pool key n).length = pool.length := by
  intro pool
  induction pool with
  | nil => rfl
  | cons t rest ih =>
      simp only [poolBump]
      by_cases ht : poolKey t = key
      · rw [if_pos ht]
        simp
      · rw [if_neg ht]
        simp [ih]

/-- The sample `(1, 1, 1, 1)` of the biased checkerboard of
`test_occurrence_growing`, observed 3 times. -/
def exS5a : IsingSample :=
  { assignment := [(0, 1), (1, 1), (2, 1), (3, 1)], occurences := 3, energy := 1 }

/-- The same assignment observed 2 more times. -/
def exS5b : IsingSample :=
  { assignment := [(0, 1), (1, 1), (2, 1), (3, 1)], occurences := 2, energy := 1 }

/-- C5. Pool deduplication: folding any sequence of `add` calls into an empty
pool keeps at most one pooled Sample per distinct assignment (`as_tuple` keys
stay duplicate-free); adding an equal-assignment sample leaves the number of
distinct Samples unchanged and adds the occurrence counts on the pooled one;
`len` is always the sum of occurrence counts over the adds, not the number of
distinct Samples; concretely, adding occurrences 3 then 2 of one assignment
yields a single pooled Sample with occurrence 5. -/
theorem pool_dedup :
    (∀ (samples : List IsingSample),
        ((samples.foldl pool_add []).map poolKey).Nodup ∧
        pool_len (samples.foldl pool_add [])
          = (samples.map (fun s => s.occurences)).sum) ∧
    (∀ (pool : List IsingSample) (s t : IsingSample),
        (pool.map poolKey).Nodup → t ∈ pool → poolKey t = poolKey s →
        (pool_add pool s).length = pool.length ∧
        { t with occurences := t.occurences + s.occurences } ∈ pool_add pool s) ∧
    (pool_add (pool_add [] exS5a) exS5b
        = [{ assignment := [(0, 1), (1, 1), (2, 1), (3, 1)],
             occurences := 5, energy := 1 }]) := by
  refine ⟨?_, ?_, ?_⟩
  · have haux : ∀ (samples pool : List IsingSample), (pool.map poolKey).Nodup →
        ((samples.foldl pool_add pool).map poolKey).Nodup ∧
        pool_len (samples.foldl pool_add pool)
          = pool_len pool + (samples.map (fun s => s.occurences)).sum := by
      intro samples
      induction samples with
      | nil =>
          intro pool h
          simp only [List.foldl_nil, List.map_nil, List.sum_nil]
          exact ⟨h, by ring⟩
      | cons s rest ih =>
          intro pool h
          simp only [List.foldl_cons, List.map_cons, List.sum_cons]
          obtain ⟨h1, h2⟩ := ih (pool_add pool s) (pool_add_nodup pool s h)
          refine ⟨h1, ?_⟩
          rw [h2, pool_add_len]
          ring
    intro samples
    obtain ⟨h1, h2⟩ := haux samples [] (by simp)
    refine ⟨h1, ?_⟩
    rw [h2]
    simp [pool_len]
  · intro pool s t hnd ht hkey
    unfold pool_add
    rw [if_pos ⟨t, ht, hkey⟩]
    refine ⟨poolBump_length _ _ pool, ?_⟩
    rw [← hkey]
    exact poolBump_mem hnd ht
  · have h1 : pool_add [] exS5a = [exS5a] := by
      unfold pool_add
      rw [if_neg (by simp)]
      rfl
    rw [h1]
    unfold pool_add
    rw [if_pos ⟨exS5a, List.mem_singleton_self _, rfl⟩]
    unfold poolBump
    rw [if_pos (show poolKey exS5a = poolKey exS5b from rfl)]
    show [{ exS5a with occurences := exS5a.occurences + exS5b.occurences }] = _
    norm_num [exS5a, exS5b]

/-- Witness for C5: merging a second observation of the same assignment into
a one-sample pool keeps one distinct Sample and sums the occurrences. -/
theorem pool_dedup_witness :
    (pool_add [exS5a] exS5b).length = [exS5a].length ∧
    { exS5a with occurences := exS5a.occurences + exS5b.occurences }
      ∈ pool_add [exS5a] exS5b :=
  pool_dedup.2.1 [exS5a] exS5b exS5a (by simp) (List.mem_singleton_self _) rfl

/-! ## `raw_data` and `mean_energy` (claim C9) -/

/-- `SamplePool.raw_data`: every pooled sample's energy repeated once per
occurrence (Python's `[e] * occ` is empty for non-positive counts, whence
`Int.toNat`). -/
def raw_data (pool : List IsingSample) : List ℚ :=
  (pool.map (fun s => List.replicate s.occurences.toNat s.energy)).flatten

/-- The value of a `numpy` float-returning reduction: a number or NaN. -/
inductive MeanResult where
  | val (q : ℚ)
  | nan
  deriving DecidableEq

/-- `SamplePool.mean_energy = numpy.average(self.raw_data)`.  On an empty
sequence `numpy.average` emits a RuntimeWarning and returns NaN — it raises
no exception — so the empty pool maps to `MeanResult.nan`, not to an error. -/
def mean_energy (pool : List IsingSample) : MeanResult :=
  if raw_data pool = [] then .nan
  else .val ((raw_data pool).sum / (raw_data pool).length)

lemma raw_data_length (pool : List IsingSample) :
    (raw_data pool).length = (pool.map (fun s => s.occurences.toNat)).sum := by
  unfold raw_data
  rw [List.length_flatten, List.map_map]
  exact congrArg List.sum (List.map_congr_left (fun s _ => by simp))

lemma raw_data_sum (pool : List IsingSample) :
    (raw_data pool).sum
      = (pool.map (fun s => (s.occurences.toNat : ℚ) * s.energy)).sum := by
  unfold raw_data
  induction pool with
  | nil => simp
  | cons s rest ih =>
      simp only [List.map_cons, List.flatten_cons, List.sum_append, List.sum_cons, ih]
      rw [List.sum_replicate]
      simp [nsmul_eq_mul]

/-- C9 counterexample: on the empty pool, `mean_energy` is numpy's NaN result
(`MeanResult` has no error alternative because `numpy.average` never raises
here), refuting the claimed *empty pool error*. -/
theorem mean_energy_empty_counterexample : mean_energy [] = MeanResult.nan := rfl

/-- C9 (amended). `mean_energy` returns the arithmetic mean of
`raw_data` — equivalently the occurrence-weighted mean energy — whenever the
pool has at least one total occurrence; with zero total occurrences it
returns NaN (no *empty pool* error is raised). -/
theorem mean_energy_spec (pool : List IsingSample) :
    ((pool.map (fun s => s.occurences.toNat)).sum = 0 → mean_energy pool = .nan) ∧
    (0 < (pool.map (fun s => s.occurences.toNat)).sum →
        mean_energy pool
          = .val ((pool.map (fun s => (s.occurences.toNat : ℚ) * s.energy)).sum
              / ((((pool.map (fun s => s.occurences.toNat)).sum : ℕ)) : ℚ))) := by
  constructor
  · intro h0
    have hempty : raw_data pool = [] := by
      rw [← List.length_eq_zero, raw_data_length]
      exact h0
    unfold mean_energy
    rw [if_pos hempty]
  · intro hpos
    have hne : raw_data pool ≠ [] := by
      intro hh
      rw [← List.length_eq_zero, raw_data_length] at hh
      omega
    unfold mean_energy
    rw [if_neg hne, raw_data_sum, raw_data_length]

/-- Witness for the amended C9 at a concrete one-sample pool. -/
theorem mean_energy_spec_witness :
    mean_energy [exS5a]
      = .val (([exS5a].map (fun s => (s.occurences.toNat : ℚ) * s.energy)).sum
          / (((([exS5a].map (fun s => s.occurences.toNat)).sum : ℕ)) : ℚ)) :=
  (mean_energy_spec [exS5a]).2 (by decide)

/-! ## Serialization (`IsingModel.serialize` / `deserialize`, claim C6)

The JSON payload is modelled structurally: each dict item is formatted as the
string `"key: value"` and parsed back by splitting on the first `:` and
json-decoding both halves.  For integer variables, integer pair keys and
json-round-tripping numbers (CPython's repr round-trip) that encoding is the
identity on the pair, so the payload is modelled as the lists themselves.
`list(self.variables)` enumerates a set in unspecified order; deserialization
only rebuilds the set, so the canonical sorted enumeration is used. -/

structure SerializedModel where
  J : JDict
  h : QDict
  J_clamped : JDict
  h_clamped : QDict
  vars : List Var
  energy_offset : ℚ
  clamped : QDict
  deriving DecidableEq

/-- `IsingModel.serialize`. -/
def serialize (m : IsingModel) : SerializedModel :=
  { J := m.J, h := m.h, J_clamped := m.J_clamped, h_clamped := m.h_clamped,
    vars := m.vars.sort (· ≤ ·), energy_offset := m.energy_offset,
    clamped := m.clamped }

/-- `IsingModel.deserialize`: rebuild plain dicts from the item lists, run the
constructor on `(J, h)`, then overwrite the clamped views, the clamped map,
the variable set and the energy offset from the payload (no clamp replay). -/
def deserialize (d : SerializedModel) : Except String IsingModel :=
  match mkIsingModel (dictUpdate [] d.J) (dictUpdate [] d.h) with
  | .error e => .error e
  | .ok obj =>
      match Jupdate [] (dictUpdate [] d.J_clamped) with
      | .error e => .error e
      | .ok Jc =>
          .ok { obj with J_clamped := Jc,
                         h_clamped := dictUpdate [] (dictUpdate [] d.h_clamped),
                         clamped := dictUpdate [] d.clamped,
                         vars := d.vars.toFinset,
                         energy_offset := d.energy_offset }

lemma dictSet_of_not_mem {κ : Type} [DecidableEq κ] :
    ∀ {l : List (κ × ℚ)} {k : κ} (v : ℚ), k ∉ dictKeys l →
      dictSet l k v = l ++ [(k, v)] := by
  intro l
  induction l with
  | nil => intro k v _; rfl
  | cons p rest ih =>
      intro k v h
      simp only [dictKeys, List.map_cons, List.mem_cons, not_or] at h
      simp only [dictSet, if_neg (Ne.symm h.1), List.cons_append]
      rw [ih v (by simpa [dictKeys] using h.2)]

lemma dictUpdate_append {κ : Type} [DecidableEq κ] :
    ∀ {other : List (κ × ℚ)} (l : List (κ × ℚ)), NodupKeys other →
      (∀ k ∈ dictKeys other, k ∉ dictKeys l) → dictUpdate l other = l ++ other := by
  intro other
  induction other with
  | nil => intro l _ _; simp [dictUpdate]
  | cons p rest ih =>
      intro l hnd hdisj
      have hnd0 : p.1 ∉ List.map Prod.fst rest ∧ (List.map Prod.fst rest).Nodup := by
        have h0 := hnd
        simp only [NodupKeys, dictKeys, List.map_cons, List.nodup_cons] at h0
        exact h0
      show dictUpdate (dictSet l p.1 p.2) rest = l ++ p :: rest
      rw [dictSet_of_not_mem p.2 (hdisj p.1 (List.mem_cons_self _ _))]
      rw [ih (l ++ [p]) hnd0.2 ?_]
      · simp
      · intro k hk
        simp only [dictKeys, List.map_append, List.mem_append, not_or]
        refine ⟨hdisj k (List.mem_cons_of_mem _ hk), ?_⟩
        simp only [List.map_cons, List.map_nil, List.mem_singleton]
        intro hh
        exact hnd0.1 (hh ▸ hk)

lemma dictUpdate_nil_eq {κ : Type} [DecidableEq κ] {l : List (κ × ℚ)}
    (h : NodupKeys l) : dictUpdate [] l = l := by
  rw [dictUpdate_append [] h (fun k _ => by simp [dictKeys])]
  rfl

lemma Jupdate_of_wf :
    ∀ {other : JDict} (l : JDict), NodupKeys other →
      (∀ p ∈ other, p.1.1 < p.1.2) → (∀ k ∈ dictKeys other, k ∉ dictKeys l) →
      Jupdate l other = .ok (l ++ other) := by
  intro other
  induction other with
  | nil => intro l _ _ _; simp [Jupdate, List.foldlM, pure, Except.pure]
  | cons p rest ih =>
      intro l hnd hsort hdisj
      have hnd0 : p.1 ∉ List.map Prod.fst rest ∧ (List.map Prod.fst rest).Nodup := by
        have h0 := hnd
        simp only [NodupKeys, dictKeys, List.map_cons, List.nodup_cons] at h0
        exact h0
      have hlt : p.1.1 < p.1.2 := hsort p (List.mem_cons_self _ _)
      have hset : Jset l p.1 p.2 = .ok (l ++ [p]) := by
        unfold Jset
        rw [if_neg (ne_of_lt hlt)]
        rw [show sortPair p.1 = p.1 from by simp [sortPair, le_of_lt hlt]]
        rw [dictSet_of_not_mem p.2 (hdisj p.1 (List.mem_cons_self _ _))]
      show List.foldlM (fun acc q => Jset acc q.1 q.2) l (p :: rest) = _
      rw [List.foldlM_cons, hset]
      show Jupdate (l ++ [p]) rest = _
      rw [ih (l ++ [p]) hnd0.2 (fun q hq => hsort q (List.mem_cons_of_mem _ hq)) ?_]
      · simp
      · intro k hk
        simp only [dictKeys, List.map_append, List.mem_append, not_or]
        refine ⟨hdisj k (List.mem_cons_of_mem _ hk), ?_⟩
        simp only [List.map_cons, List.map_nil, List.mem_singleton]
        intro hh
        exact hnd0.1 (hh ▸ hk)

lemma mkIsingModel_of_wf {J : JDict} {h : QDict} (hndJ : NodupKeys J)
    (hsort : ∀ p ∈ J, p.1.1 < p.1.2) (hndh : NodupKeys h) :
    mkIsingModel J h
      = .ok { J := J, h := h, J_clamped := J, h_clamped := h, clamped := [],
              energy_offset := 0,
              vars := Jelements J ∪ (dictKeys h).toFinset } := by
  unfold mkIsingModel
  rw [Jupdate_of_wf [] hndJ hsort (fun k _ => by simp [dictKeys])]
  simp only [List.nil_append, bind, Except.bind, dictUpdate_nil_eq hndh]

/-- Builder-maintained invariants the round trip relies on: every stored dict
has unique keys and the symmetric `J` matrices hold sort-normalized
off-diagonal keys (all guaranteed by `__init__` and `clamp`). -/
def WFser (m : IsingModel) : Prop :=
  NodupKeys m.J ∧ (∀ p ∈ m.J, p.1.1 < p.1.2) ∧ NodupKeys m.h ∧
  NodupKeys m.J_clamped ∧ (∀ p ∈ m.J_clamped, p.1.1 < p.1.2) ∧
  NodupKeys m.h_clamped ∧ NodupKeys m.clamped

instance (m : IsingModel) : Decidable (WFser m) := by
  unfold WFser; infer_instance

/-- The model of `test_serialize_deserialize`-style data
(`h = {0: 20.4, 1: 10, 2: -5}`, `J = {(0, 1): -4.5, (1, 2): 5}`). -/
def exModel6 : IsingModel :=
  { J := [((0, 1), -4.5), ((1, 2), 5)]
    h := [(0, 20.4), (1, 10), (2, -5)]
    J_clamped := [((0, 1), -4.5), ((1, 2), 5)]
    h_clamped := [(0, 20.4), (1, 10), (2, -5)]
    clamped := []
    energy_offset := 0
    vars := {0, 1, 2} }

/-- C6. Deserialization of a serialized model reconstructs the model
exactly — same `J`, `h`, `J_clamped`, `h_clamped`, `variables`, `clamped` and
`energy_offset` — without replaying clamps; concretely the round trip of the
model with `h = {0: 20.4, 1: 10, 2: -5}`, `J = {(0, 1): -4.5, (1, 2): 5}`
reproduces identical `h` and `J`. -/
theorem serialize_deserialize_roundtrip :
    (∀ m : IsingModel, WFser m → deserialize (serialize m) = .ok m) ∧
    (deserialize (serialize exModel6) = .ok exModel6) := by
  have hgen : ∀ m : IsingModel, WFser m → deserialize (serialize m) = .ok m := by
    intro m hser
    obtain ⟨hndJ, hsortJ, hndh, hndJc, hsortJc, hndhc, hndcl⟩ := hser
    unfold deserialize serialize
    simp only
    rw [dictUpdate_nil_eq hndJ, dictUpdate_nil_eq hndh,
        mkIsingModel_of_wf hndJ hsortJ hndh]
    rw [dictUpdate_nil_eq hndJc,
        Jupdate_of_wf [] hndJc hsortJc (fun k _ => by simp [dictKeys])]
    simp only [List.nil_append]
    rw [dictUpdate_nil_eq hndhc, dictUpdate_nil_eq hndhc, dictUpdate_nil_eq hndcl]
    congr 1
    have : (m.vars.sort (· ≤ ·)).toFinset = m.vars := by
      ext x
      rw [List.mem_toFinset, Finset.mem_sort]
    rw [this]
  exact ⟨hgen, hgen exModel6 (by decide)⟩

/-- Witness for C6: the round trip at the concrete model. -/
theorem serialize_deserialize_roundtrip_witness :
    deserialize (serialize exModel6) = .ok exModel6 :=
  serialize_deserialize_roundtrip.1 exModel6 (by decide)

/-! ## Exhaustive sampling (`bruteforce.py`, claim C7) -/

/-- Modelled from the spec: `util.split_iterator`, imported by
`bruteforce.py`, is absent from `util.py`; per the spec, assignments "are
partitioned into bounded-size chunks" processed in order, so the helper is
modelled as consecutive chunking (chunk size at least 1). -/
def split_iterator {α : Type} (n : ℕ) : (l : List α) → List (List α)
  | [] => []
  | x :: xs =>
      ((x :: xs).take (max n 1)) :: split_iterator n ((x :: xs).drop (max n 1))
termination_by l => l.length
decreasing_by
  simp only [List.length_drop, List.length_cons]
  omega

lemma split_iterator_flatten {α : Type} (n : ℕ) :
    ∀ (l : List α), (split_iterator n l).flatten = l := by
  have haux : ∀ (N : ℕ) (l : List α), l.length ≤ N →
      (split_iterator n l).flatten = l := by
    intro N
    induction N with
    | zero =>
        intro l h
        have hl : l = [] := List.length_eq_zero.mp (Nat.le_zero.mp h)
        subst hl
        rw [split_iterator]
        rfl
    | succ N ihN =>
        intro l h
        cases l with
        | nil => rw [split_iterator]; rfl
        | cons x xs =>
            rw [split_iterator]
            simp only [List.flatten_cons]
            rw [ihN ((x :: xs).drop (max n 1)) ?_]
            · exact List.take_append_drop _ _
            · simp only [List.length_drop, List.length_cons] at h ⊢
              omega
  exact fun l => haux l.length l le_rfl

/-- `BruteforceSampler.generate_assignments`:
`itertools.product([-1, 1], repeat=k)` over the free variables, leftmost
position varying slowest. -/
def generate_assignments : ℕ → List (List ℚ)
  | 0 => [[]]
  | k + 1 => ([-1, 1] : List ℚ).flatMap
      (fun v => (generate_assignments k).map (fun t => v :: t))

lemma generate_assignments_length (k : ℕ) :
    (generate_assignments k).length = 2 ^ k := by
  induction k with
  | zero => rfl
  | succ k ih =>
      simp [generate_assignments, ih]
      ring

lemma generate_assignments_mem_length :
    ∀ (k : ℕ) (t : List ℚ), t ∈ generate_assignments k → t.length = k := by
  intro k
  induction k with
  | zero =>
      intro t ht
      simp only [generate_assignments, List.mem_singleton] at ht
      simp [ht]
  | succ k ih =>
      intro t ht
      simp only [generate_assignments, List.mem_flatMap, List.mem_map] at ht
      obtain ⟨v, -, t', ht', rfl⟩ := ht
      simp [ih t' ht']

lemma generate_assignments_nodup : ∀ (k : ℕ), (generate_assignments k).Nodup := by
  intro k
  induction k with
  | zero => simp [generate_assignments]
  | succ k ih =>
      show (((-1 : ℚ) :: [1]).flatMap
        (fun v => (generate_assignments k).map (fun t => v :: t))).Nodup
      simp only [List.flatMap_cons, List.flatMap_nil, List.append_nil]
      rw [List.nodup_append]
      refine ⟨ih.map (fun a b hab => by simpa using hab),
              ih.map (fun a b hab => by simpa using hab), ?_⟩
      intro x hx hy
      obtain ⟨t1, -, rfl⟩ := List.mem_map.mp hx
      obtain ⟨t2, -, heq⟩ := List.mem_map.mp hy
      have : (1 : ℚ) = -1 := (List.cons.injEq _ _ _ _ ▸ heq).1
      norm_num at this

/-- The energy of one enumerated assignment of the free variables (the
expanded sample's energy, as cached by `IsingSample.__init__`). -/
def assignment_energy (m : IsingModel) (t : List ℚ) : ℚ :=
  compute_energy m (sampleLookup (expand_sample m (List.zip (sortedVariables m) t)))

/-- `BruteforceSampler.sample`: enumerate all assignments of the free
variables, evaluate them in order-preserving chunks, and fold every
resulting sample into one pool.  (Construction never fails for enumerated
tuples; `filterMap` over `toOption` renders that.) -/
def bruteforce_sample (m : IsingModel) : List IsingSample :=
  ((split_iterator 100000 (generate_assignments m.vars.card)).flatten.filterMap
    (fun t => (mkIsingSampleTuple m t 1).toOption)).foldl pool_add []

/-- `BruteforceSampler.partition_function`, parametrized by the weight
function `w`, which stands for `x ↦ math.e ** (-x / temperature)` (real
exponentiation is not computable; the claim's instance is recovered by
instantiating `w`, and the theorem also states the `Real.exp` form). -/
def partition_function (m : IsingModel) (w : ℚ → ℚ) : ℚ :=
  ((bruteforce_sample m).map (fun s => w s.energy)).sum

lemma sortedVariables_length (m : IsingModel) :
    (sortedVariables m).length = m.vars.card :=
  Finset.length_sort _

lemma sortedVariables_nodup (m : IsingModel) : (sortedVariables m).Nodup :=
  Finset.sort_nodup _ _

lemma mkIsingSampleTuple_ok (m : IsingModel) (t : List ℚ)
    (hlen : t.length = m.vars.card) :
    mkIsingSampleTuple m t 1 = .ok
      { assignment := expand_sample m (List.zip (sortedVariables m) t),
        occurences := 1, energy := assignment_energy m t } := by
  unfold mkIsingSampleTuple mkIsingSample
  have hkeys : dictKeys (List.zip (sortedVariables m) t) = sortedVariables m := by
    unfold dictKeys
    exact List.map_fst_zip _ _ (le_of_eq (by rw [sortedVariables_length, hlen]))
  have hfin : (dictKeys (List.zip (sortedVariables m) t)).toFinset = m.vars := by
    rw [hkeys]
    exact Finset.sort_toFinset _ _
  rw [if_neg (by rw [hfin]; simp), if_neg (by rw [hfin]; simp)]
  rfl

lemma filterMap_toOption_eq_map {α : Type} {F : α → Except String IsingSample}
    {g : α → IsingSample} :
    ∀ {l : List α}, (∀ t ∈ l, F t = .ok (g t)) →
      l.filterMap (fun t => (F t).toOption) = l.map g := by
  intro l
  induction l with
  | nil => intro _; rfl
  | cons x xs ih =>
      intro h
      simp only [List.filterMap_cons, List.map_cons]
      rw [h x (List.mem_cons_self _ _)]
      simp only [Except.toOption]
      have h2 := ih (fun t ht => h t (List.mem_cons_of_mem _ ht))
      simp only [Except.toOption] at h2
      rw [h2]

lemma foldl_pool_add_append :
    ∀ (samples pool : List IsingSample),
      ((pool ++ samples).map poolKey).Nodup →
      samples.foldl pool_add pool = pool ++ samples := by
  intro samples
  induction samples with
  | nil => intro pool _; simp
  | cons s rest ih =>
      intro pool hnd
      simp only [List.foldl_cons]
      have hmem : ¬ ∃ t ∈ pool, poolKey t = poolKey s := by
        rintro ⟨t, ht, hkey⟩
        have h1 : poolKey s ∈ pool.map poolKey := hkey ▸ List.mem_map_of_mem _ ht
        rw [List.map_append, List.nodup_append] at hnd
        exact (hnd.2.2 h1) (List.mem_map_of_mem poolKey (List.mem_cons_self s rest))
      have hadd : pool_add pool s = pool ++ [s] := by
        unfold pool_add
        rw [if_neg hmem]
      rw [hadd, ih (pool ++ [s]) (by simpa using hnd)]
      simp

lemma list_pair_ext :
    ∀ {l1 l2 : List (Var × ℚ)}, l1.map Prod.fst = l2.map Prod.fst →
      l1.map Prod.snd = l2.map Prod.snd → l1 = l2 := by
  intro l1
  induction l1 with
  | nil =>
      intro l2 h1 _
      cases l2 with
      | nil => rfl
      | cons q qs => simp at h1
  | cons p ps ih =>
      intro l2 h1 h2
      cases l2 with
      | nil => simp at h1
      | cons q qs =>
          simp only [List.map_cons, List.cons.injEq] at h1 h2
          rw [Prod.ext h1.1 h2.1, ih h1.2 h2.2]

lemma zip_eq_of_lookup_eq :
    ∀ (vars : List Var), vars.Nodup →
      ∀ (t t' : List ℚ), t.length = vars.length → t'.length = vars.length →
        (∀ k, dictLookup (List.zip vars t) k = dictLookup (List.zip vars t') k) →
        t = t' := by
  intro vars
  induction vars with
  | nil =>
      intro _ t t' ht ht' _
      rw [List.length_eq_zero.mp ht, List.length_eq_zero.mp ht']
  | cons v vs ih =>
      intro hnd t t' ht ht' hlk
      obtain ⟨hv, hnd'⟩ := List.nodup_cons.mp hnd
      cases t with
      | nil => simp at ht
      | cons x ts =>
          cases t' with
          | nil => simp at ht'
          | cons x' ts' =>
              have hx : x = x' := by
                have h0 := hlk v
                simp only [List.zip_cons_cons, dictLookup, if_pos rfl] at h0
                exact Option.some.inj h0
              simp only [List.length_cons, Nat.succ.injEq] at ht ht'
              rw [hx, ih hnd' ts ts' ht ht' ?_]
              intro k
              by_cases hk : k = v
              · subst hk
                have h1 : dictLookup (List.zip vs ts) k = none := by
                  apply dictLookup_eq_none_of_not_mem
                  intro hmem
                  exact hv (List.map_fst_zip vs ts (le_of_eq ht.symm) ▸ hmem)
                have h2 : dictLookup (List.zip vs ts') k = none := by
                  apply dictLookup_eq_none_of_not_mem
                  intro hmem
                  exact hv (List.map_fst_zip vs ts' (le_of_eq ht'.symm) ▸ hmem)
                rw [h1, h2]
              · have h0 := hlk k
                simp only [List.zip_cons_cons, dictLookup,
                  if_neg (fun hh : v = k => hk hh.symm)] at h0
                exact h0

lemma zip_vars_nodupKeys (m : IsingModel) {t : List ℚ}
    (hlen : t.length = m.vars.card) :
    NodupKeys (List.zip (sortedVariables m) t) := by
  show (dictKeys _).Nodup
  unfold dictKeys
  rw [List.map_fst_zip _ _ (le_of_eq ((sortedVariables_length m).trans hlen.symm))]
  exact sortedVariables_nodup m

lemma bruteforce_key_inj (m : IsingModel) (hWF : WF m) {t t' : List ℚ}
    (hlen : t.length = m.vars.card) (hlen' : t'.length = m.vars.card)
    (hkey : as_tuple (expand_sample m (List.zip (sortedVariables m) t))
          = as_tuple (expand_sample m (List.zip (sortedVariables m) t'))) :
    t = t' := by
  have hvlen : (sortedVariables m).length = m.vars.card := sortedVariables_length m
  have hndz : NodupKeys (List.zip (sortedVariables m) t) := zip_vars_nodupKeys m hlen
  have hndz' : NodupKeys (List.zip (sortedVariables m) t') := zip_vars_nodupKeys m hlen'
  have hok : mkIsingSample m (List.zip (sortedVariables m) t) 1 = .ok
      { assignment := expand_sample m (List.zip (sortedVariables m) t),
        occurences := 1, energy := assignment_energy m t } :=
    mkIsingSampleTuple_ok m t hlen
  have hok' : mkIsingSample m (List.zip (sortedVariables m) t') 1 = .ok
      { assignment := expand_sample m (List.zip (sortedVariables m) t'),
        occurences := 1, energy := assignment_energy m t' } :=
    mkIsingSampleTuple_ok m t' hlen'
  have hkeysEq := mk_sample_keys_eq hndz hndz' hok hok'
  dsimp only at hkeysEq
  unfold as_tuple at hkey
  have hsi : sortItems (expand_sample m (List.zip (sortedVariables m) t))
      = sortItems (expand_sample m (List.zip (sortedVariables m) t')) :=
    list_pair_ext hkeysEq hkey
  have hndE : NodupKeys (expand_sample m (List.zip (sortedVariables m) t)) :=
    nodupKeys_dictUpdate _ _ hndz
  have hperm : List.Perm (expand_sample m (List.zip (sortedVariables m) t))
      (expand_sample m (List.zip (sortedVariables m) t')) :=
    ((sortItems_perm _).symm.trans (hsi ▸ sortItems_perm _))
  have hlkE := dictLookup_eq_of_perm hperm hndE
  have hzipkeys : ∀ (s : List ℚ), s.length = m.vars.card →
      dictKeys (List.zip (sortedVariables m) s) = sortedVariables m := by
    intro s hs
    unfold dictKeys
    exact List.map_fst_zip _ _ (le_of_eq (hvlen.trans hs.symm))
  have hlkZ : ∀ k, dictLookup (List.zip (sortedVariables m) t) k
      = dictLookup (List.zip (sortedVariables m) t') k := by
    intro k
    by_cases hk : k ∈ dictKeys m.clamped
    · have hknv : k ∉ m.vars := by
        obtain ⟨w, hw⟩ := mem_dictKeys_lookup hk
        exact hWF.2.2.2.2.1 (k, w) (dictLookup_eq_some_mem hw)
      have hnv : k ∉ sortedVariables m := fun hmem =>
        hknv ((Finset.mem_sort _).mp hmem)
      rw [dictLookup_eq_none_of_not_mem (fun hmem => hnv (hzipkeys t hlen ▸ hmem)),
          dictLookup_eq_none_of_not_mem (fun hmem => hnv (hzipkeys t' hlen' ▸ hmem))]
    · have h1 := dictLookup_dictUpdate_not_mem (k := k)
        (List.zip (sortedVariables m) t) hk
      have h2 := dictLookup_dictUpdate_not_mem (k := k)
        (List.zip (sortedVariables m) t') hk
      rw [← h1, ← h2]
      exact hlkE k
  exact zip_eq_of_lookup_eq (sortedVariables m) (sortedVariables_nodup m) t t'
    (hlen.trans hvlen.symm) (hlen'.trans hvlen.symm) hlkZ

lemma bruteforce_sample_eq (m : IsingModel) (hWF : WF m) :
    bruteforce_sample m = (generate_assignments m.vars.card).map
      (fun t => { assignment := expand_sample m (List.zip (sortedVariables m) t),
                  occurences := 1, energy := assignment_energy m t }) := by
  unfold bruteforce_sample
  rw [split_iterator_flatten]
  rw [filterMap_toOption_eq_map
      (fun t ht => mkIsingSampleTuple_ok m t (generate_assignments_mem_length _ t ht))]
  have hnodup : (((generate_assignments m.vars.card).map
      (fun t => ({ assignment := expand_sample m (List.zip (sortedVariables m) t),
                   occurences := 1, energy := assignment_energy m t } : IsingSample))).map
        poolKey).Nodup := by
    rw [List.map_map]
    apply List.Nodup.map_on ?_ (generate_assignments_nodup _)
    intro t ht t' ht' hkey
    exact bruteforce_key_inj m hWF
      (generate_assignments_mem_length _ t ht)
      (generate_assignments_mem_length _ t' ht')
      hkey
  have := foldl_pool_add_append ((generate_assignments m.vars.card).map
      (fun t => ({ assignment := expand_sample m (List.zip (sortedVariables m) t),
                   occurences := 1, energy := assignment_energy m t } : IsingSample))) []
      (by simpa using hnodup)
  simpa using this

/-- C7. For a well-formed model with `k` free variables, a full exhaustive
sample pass produces exactly `2 ^ k` distinct pooled Samples, one per
enumerated assignment, each with occurrence count 1, and the partition
function — the sum of the weight of each pooled sample's energy, with the
weight standing for `exp(-E/T)` — equals the same sum taken over all `2 ^ k`
assignments of the free variables; the `Real.exp` instance is stated for
every temperature `T > 0`. -/
theorem partition_function_spec (m : IsingModel) (hWF : WF m) :
    (bruteforce_sample m).length = 2 ^ m.vars.card ∧
    (∀ s ∈ bruteforce_sample m, s.occurences = 1) ∧
    (∀ w : ℚ → ℚ, partition_function m w
        = ((generate_assignments m.vars.card).map
            (fun t => w (assignment_energy m t))).sum) ∧
    (∀ T : ℝ, 0 < T →
        ((bruteforce_sample m).map
            (fun s => Real.exp (-(s.energy : ℝ) / T))).sum
          = ((generate_assignments m.vars.card).map
              (fun t => Real.exp (-((assignment_energy m t : ℚ) : ℝ) / T))).sum) := by
  have hrep := bruteforce_sample_eq m hWF
  refine ⟨?_, ?_, ?_, ?_⟩
  · rw [hrep, List.length_map, generate_assignments_length]
  · intro s hs
    rw [hrep] at hs
    obtain ⟨t, -, rfl⟩ := List.mem_map.mp hs
    rfl
  · intro w
    unfold partition_function
    rw [hrep, List.map_map]
    rfl
  · intro T _
    rw [hrep, List.map_map]
    rfl

/-- Witness for C7: the exhaustive pass over the three free variables of the
concrete model yields exactly `2 ^ 3` pooled samples. -/
theorem partition_function_spec_witness :
    (bruteforce_sample exModel2).length = 2 ^ exModel2.vars.card :=
  (partition_function_spec exModel2 (by decide)).1

/- ## C8: Gibbs recording schedule (src/gibbs.py, src/exp_histogram.py)

`GibbsSampler.__init__(self, network, evidence, burnin=1000, step=100)` stores
two constant-valued defaults; `__iter__` counts sweeps from 1 and yields a
copy of the assignment whenever
`iteration >= self.burnin and iteration % self.step == 0`.
The assignment-update body is irrelevant to which sweeps are recorded, so the
schedule is embedded on its own.  `determine_gibbs_params` is
`exp_histogram.determine_gibbs_params`; Python `int()` truncates toward zero,
embedded as `pyInt`. -/

def gibbsDefaultBurnin : ℕ := 1000

def gibbsDefaultStep : ℕ := 100

def gibbsRecorded (burnin step iteration : ℕ) : Bool :=
  decide (burnin ≤ iteration) && decide (iteration % step = 0)

def gibbsRecordedSweeps (burnin step n : ℕ) : List ℕ :=
  (List.range' 1 n).filter (gibbsRecorded burnin step)

def pyInt (q : ℚ) : ℤ :=
  if 0 ≤ q then ⌊q⌋ else ⌈q⌉

def determine_gibbs_params (n_variables : ℕ) : ℤ × ℤ :=
  (pyInt ((7 : ℚ) / 10 * (n_variables : ℚ) ^ 2),
   pyInt ((1 : ℚ) / 10 * (n_variables : ℚ)) + 3)

/-- C8 counterexample: the sampler's unspecified burn-in and thinning are the
fixed constants 1000 and 100; they are not derived from the model size.  For a
16-variable model the claimed derivation gives (179, 4), which differs from
the constants actually used. -/
theorem gibbs_defaults_counterexample :
    gibbsDefaultBurnin = 1000 ∧ gibbsDefaultStep = 100 ∧
    determine_gibbs_params 16 = (179, 4) ∧
    ((gibbsDefaultBurnin : ℤ), (gibbsDefaultStep : ℤ)) ≠ determine_gibbs_params 16 := by
  have h179 : pyInt ((7 : ℚ) / 10 * (16 : ℚ) ^ 2) = 179 := by
    unfold pyInt
    rw [if_pos (by norm_num)]
    rw [Int.floor_eq_iff]
    norm_num
  have h1 : pyInt ((1 : ℚ) / 10 * (16 : ℚ)) = 1 := by
    unfold pyInt
    rw [if_pos (by norm_num)]
    rw [Int.floor_eq_iff]
    norm_num
  refine ⟨rfl, rfl, ?_, ?_⟩
  · unfold determine_gibbs_params
    push_cast
    rw [h179, h1]
    decide
  · unfold determine_gibbs_params
    push_cast
    rw [h179, h1]
    decide

/-- C8 (amended). Recording schedule: over the first `n` sweeps (counted from
1), the recorded sweep indices are exactly those `i` with `b ≤ i` and
`i % k = 0` — the multiples of the thinning step that fall at or after the
burn-in threshold.  The burn-in and thinning used when unspecified are the
fixed constants 1000 and 100; the size-derived values
`(int(0.7 n^2), int(0.1 n) + 3)` exist only in
`exp_histogram.determine_gibbs_params` and are not applied by default. -/
theorem gibbs_recording_schedule :
    (∀ b k n i, i ∈ gibbsRecordedSweeps b k n ↔
        (1 ≤ i ∧ i ≤ n ∧ b ≤ i ∧ i % k = 0)) ∧
    gibbsDefaultBurnin = 1000 ∧ gibbsDefaultStep = 100 ∧
    (∀ n, determine_gibbs_params n
        = (pyInt ((7 : ℚ) / 10 * (n : ℚ) ^ 2),
           pyInt ((1 : ℚ) / 10 * (n : ℚ)) + 3)) := by
  refine ⟨?_, rfl, rfl, fun n => rfl⟩
  intro b k n i
  unfold gibbsRecordedSweeps gibbsRecorded
  simp only [List.mem_filter, List.mem_range'_1, Bool.and_eq_true, decide_eq_true_eq]
  omega

/-- Witness for C8: with burn-in 2 and thinning 3, sweep 6 of the first ten
sweeps is recorded. -/
theorem gibbs_recording_schedule_witness :
    6 ∈ gibbsRecordedSweeps 2 3 10 :=
  (gibbs_recording_schedule.1 2 3 10 6).mpr (by decide)
